import Mathlib

/-!
# Verification of the renameThemAll name-structure engine

Shallow embedding of `renameThemAll/name_structure_inspector.py`,
`renameThemAll/outliner_logics.py` (`rename_non_unique_name`) and
`renameThemAll/renamer_logics.py` (`rename_with_type`), together with the
configuration constants of `renameThemAll/constants.py` /
`renameThemAll/default_settings.py` in their default-preset state.

Python strings are modelled as `List Char`; Python dicts (which preserve
insertion order and have unique keys) are modelled as insertion-ordered
association lists with unique keys.  In-place dict mutation is modelled by
explicit state passing.  The `while` loops of `rename_non_unique_name`
(whose termination depends on the external scene collaborator) and the
recursions whose termination Python does not guarantee are given an explicit
fuel parameter; every concrete evaluation below supplies ample fuel.
-/

set_option autoImplicit false

namespace RenameThemAll

/-- Python `str`, modelled as a list of characters. -/
abbrev Str := List Char

/-- Embed a Lean string literal as a `Str`. -/
def str (s : String) : Str := s.data

/-! ## Generic string helpers (Python `split`, `strip`, slicing) -/

/-- Prepend a character to the first piece of a split result. -/
def consHead (c : Char) : List Str → List Str
  | [] => [[c]]
  | h :: t => (c :: h) :: t

/-- Python `s.split(c)` for a single-character separator: splits at every
occurrence, yielding (number of separators + 1) pieces. -/
def splitOn (c : Char) : Str → List Str
  | [] => [[]]
  | x :: rest => if x = c then [] :: splitOn c rest else consHead x (splitOn c rest)

/-- Join pieces back with a separator character (inverse of `splitOn`). -/
def joinSep (c : Char) : List Str → Str
  | [] => []
  | [s] => s
  | s :: rest => s ++ c :: joinSep c rest

/-- Python `s.strip(c)` for a single strip character: removes every leading
and trailing occurrence of `c`. -/
def stripChar (c : Char) (s : Str) : Str :=
  ((s.dropWhile (fun x => x = c)).reverse.dropWhile (fun x => x = c)).reverse

/-- Python `s[:-n]`.  For `n = 0` Python yields the empty string `s[:0]`. -/
def dropEnd (s : Str) (n : Nat) : Str :=
  if n = 0 then [] else s.take (s.length - n)

/-- Python `s[-n:]` for `n > 0`. -/
def takeEnd (s : Str) (n : Nat) : Str := s.drop (s.length - n)

/-- Python `needle in hay` on strings: substring containment. -/
def containsSub (needle : Str) : Str → Bool
  | [] => needle.isPrefixOf []
  | c :: rest => needle.isPrefixOf (c :: rest) || containsSub needle rest

/-! ## Ordered association lists: the model of one part's category dict -/

/-- One part of a `PartDict`: Python's `Dict[str, str]` with insertion order,
as an association list with unique keys. -/
abbrev Part := List (Str × Str)

/-- The keys of a part, in insertion order. -/
def keysOf (part : Part) : List Str := part.map Prod.fst

/-- Python `key in part`. -/
def hasKey (part : Part) (k : Str) : Bool :=
  match part with
  | [] => false
  | (k', _) :: rest => k' = k || hasKey rest k

/-- Python `part[key]` (empty string when the key is absent; all source call
sites access existing keys). -/
def getVal (part : Part) (k : Str) : Str :=
  match part with
  | [] => []
  | (k', v) :: rest => if k' = k then v else getVal rest k

/-- Python `part[key] = v`: update in place when the key exists, otherwise
append the new key at the end (dict insertion order). -/
def setVal (part : Part) (k v : Str) : Part :=
  match part with
  | [] => [(k, v)]
  | (k', v') :: rest => if k' = k then (k, v) :: rest else (k', v') :: setVal rest k v

/-- Python `del part[key]` (first occurrence; keys are unique). -/
def eraseKey (part : Part) (k : Str) : Part :=
  match part with
  | [] => []
  | (k', v') :: rest => if k' = k then rest else (k', v') :: eraseKey rest k

/-- Concatenation of all values of a part in key order
(`for key in part: acc += part[key]`). -/
def concatValues (part : Part) : Str := (part.map Prod.snd).flatten

/-- Python `all(value == '' for value in part.values())`. -/
def allEmpty (part : Part) : Bool := part.all (fun kv => kv.2.isEmpty)

/-- Update the element at index `i` of a list, leaving other positions
unchanged (Python `part_dict[part_index]` mutation). -/
def modifyIdx {α : Type} (f : α → α) : Nat → List α → List α
  | _, [] => []
  | 0, a :: l => f a :: l
  | n + 1, a :: l => a :: modifyIdx f n l

/-! ## The match result (`PartDict`)

Python's top-level dict maps the integer part indices `0..P-1` (inserted
first, in order) to part dicts, plus — only in the overfilled regime — a
later-inserted top-level `"bad_naming"` key holding the raw input string. -/

structure PartDict where
  parts : List Part
  badTop : Option Str
  deriving DecidableEq, Repr

/-! ## Default-preset configuration constants (`constants.py`, `default_settings.py`) -/

/-- `DefaultNameStructure.NAME_STRUCTURE` (the active template with no preset). -/
def NAME_STRUCTURE : Str :=
  str "[symmetry]_[type]_[name][zoning][orientation][alphabetical_inc]_[numerical_inc]"

/-- `DefaultNameStructure.OPTIONAL_CATEGORIES`. -/
def OPTIONAL_CATEGORIES : List Str :=
  [str "symmetry", str "zoning", str "orientation", str "alphabetical_inc", str "numerical_inc"]

/-- `DefaultNameStructure.MANDATORY_CATEGORIES`. -/
def MANDATORY_CATEGORIES : List Str := [str "type", str "name"]

/-- `SYMMETRY_OPTIONS.values()`: the symmetry tokens `L`, `R`. -/
def SYMMETRY_OPTIONS : List Str := [str "L", str "R"]

/-- `ALL_TYPES_DICT.values()` = group types followed by mesh types. -/
def ALL_TYPES_DICT : List Str :=
  [str "prx", str "prp", str "grp", str "ctrl", str "proxy", str "render", str "hi", str "lo"]

/-- `ZONING_SINGLE_DICT.values()` in `DefaultZoningSingle` declaration order. -/
def ZONING_SINGLE_DICT : List Str :=
  [str "Lt", str "Ct", str "Rt", str "Tp", str "Md", str "Bt", str "Ft", str "Bk"]

/-- `ORIENT_SINGLE_DICT.values()` in `DefaultOrientSingle` declaration order. -/
def ORIENT_SINGLE_DICT : List Str := [str "Nt", str "Wt", str "Et", str "St"]

/-- `list("ABCDEFGHIJKLMNOPQRSTUVWXYZ")`: the alphabetical-increment candidates. -/
def ALPHABETICAL_LIST : List Str := (str "ABCDEFGHIJKLMNOPQRSTUVWXYZ").map (fun c => [c])

/-- `DefaultNumIncLenght.NUMBER_OF_DIGITS`. -/
def INC_NUMBER_OF_DIGITS : Nat := 3

/-! ## Structure compilation

`inspect_name_structure` splits the template with
`re.split(r'_(?![^\[]*\])', name_structure)` and extracts categories per part
with `re.findall(r'\[([^\]]+)\]', part)`, then builds each part dict with a
comprehension (which deduplicates repeated category names, keeping first
position). -/

/-- The regex lookahead `[^\[]*\]`: some run of non-`[` characters followed by
`]` at the current position. -/
def lookaheadClosing : Str → Bool
  | [] => false
  | c :: rest => if c = ']' then true else if c = '[' then false else lookaheadClosing rest

/-- `re.split(r'_(?![^\[]*\])', s)`: split at each `_` whose lookahead fails
(i.e. underscores inside brackets are not delimiters). -/
def splitTemplate : Str → List Str
  | [] => [[]]
  | c :: rest =>
    if c = '_' && !lookaheadClosing rest then [] :: splitTemplate rest
    else consHead c (splitTemplate rest)

/-- Scan for the content of a bracket group: characters up to the first `]`
(the regex `[^\]]+\]` body).  Returns the content and the remainder after the
closing bracket, or `none` when no `]` follows. -/
def collectUntilClose : Str → Option (Str × Str)
  | [] => none
  | c :: rest =>
    if c = ']' then some ([], rest)
    else match collectUntilClose rest with
      | some (cnt, rem) => some (c :: cnt, rem)
      | none => none

/-- Worker for `findBrackets`.  The fuel argument only makes the recursion
structural: it starts at the scanned string's length and, by
`collectUntilClose_length`, never runs out before the scan completes. -/
def findBracketsAux : Nat → Str → List Str
  | 0, _ => []
  | _, [] => []
  | fuel + 1, c :: rest =>
    if c = '[' then
      match collectUntilClose rest with
      | some (cnt, rem) =>
        if cnt = [] then findBracketsAux fuel rest
        else cnt :: findBracketsAux fuel rem
      | none => findBracketsAux fuel rest
    else findBracketsAux fuel rest

/-- `re.findall(r'\[([^\]]+)\]', s)`: non-overlapping left-to-right matches of
nonempty bracket groups. -/
def findBrackets (s : Str) : List Str := findBracketsAux s.length s

/-- Python `word.strip('[]')`. -/
def stripBrackets (s : Str) : Str :=
  ((s.dropWhile (fun x => x = '[' || x = ']')).reverse.dropWhile
    (fun x => x = '[' || x = ']')).reverse

/-- Dict-comprehension deduplication: keep the first occurrence of each word. -/
def dedupeAux (seen : List Str) : List Str → List Str
  | [] => []
  | x :: rest =>
    if seen.contains x then dedupeAux seen rest else x :: dedupeAux (x :: seen) rest

def dedupe (l : List Str) : List Str := dedupeAux [] l

/-- `{word.strip('[]'): '' for word in re.findall(r'\[([^\]]+)\]', part)}`. -/
def initPart (partStr : Str) : Part :=
  (dedupe ((findBrackets partStr).map stripBrackets)).map (fun k => (k, ([] : Str)))

/-- The compiled parts of a template: one (initially all-empty) part dict per
template segment. -/
def compiledParts (ns : Str) : List Part := (splitTemplate ns).map initPart

/-- The part indices whose categories are all optional
(`optional_parts` in `inspect_name_structure`; `all` of an empty part is
vacuously true, as in Python). -/
def optionalPartIndices (ns : Str) : List Nat :=
  (List.range (splitTemplate ns).length).filter
    (fun i => (keysOf ((compiledParts ns).getD i [])).all
      (fun k => OPTIONAL_CATEGORIES.contains k))

/-- The remaining part indices (`mandatory_parts` in
`inspect_name_structure`). -/
def mandatoryPartIndices (ns : Str) : List Nat :=
  (List.range (splitTemplate ns).length).filter
    (fun i => !(keysOf ((compiledParts ns).getD i [])).all
      (fun k => OPTIONAL_CATEGORIES.contains k))

/-! ## Category peeling (`separate_value`, `separate_number`, recursive peels) -/

/-- `NameStructureInspector.separate_value`: first candidate (in configured
order) that matches at the anchored end wins. -/
def separate_value (p : Str) (value_list : List Str) (start : Bool) : Str × Str :=
  match value_list with
  | [] => ([], p)
  | v :: rest =>
    if start && v.isPrefixOf p then (v, p.drop v.length)
    else if !start && v.isSuffixOf p then (v, dropEnd p v.length)
    else separate_value p rest start

/-- `NameStructureInspector.separate_number`: peel exactly `number_of_digits`
characters from the anchored end when that exact slice is entirely digits. -/
def separate_number (p : Str) (number_of_digits : Nat) (start : Bool) : Str × Str :=
  if start && decide (number_of_digits ≤ p.length)
      && (p.take number_of_digits).all Char.isDigit then
    (p.take number_of_digits, p.drop number_of_digits)
  else if !start && decide (number_of_digits ≤ p.length)
      && (takeEnd p number_of_digits).all Char.isDigit then
    (takeEnd p number_of_digits, p.take (p.length - number_of_digits))
  else ([], p)

/-- `NameStructureInspector.separate_suffixes_recurcive`: repeatedly strip the
first matching token from the anchored end, accumulating the stripped tokens
(at the matching end of the accumulator).  The Python recursion terminates
because every configured token is nonempty; `fuel` (always supplied as more
than the fragment length) makes this explicit. -/
def separate_suffixes_recurcive (fuel : Nat) (p : Str) (value_list : List Str)
    (backup_suffix : Str) (start : Bool) : Str × Str :=
  match fuel with
  | 0 => (backup_suffix, p)
  | fuel + 1 =>
    if start then
      match value_list.find? (fun v => v.isPrefixOf p) with
      | some v =>
        separate_suffixes_recurcive fuel (p.drop v.length) value_list
          (backup_suffix ++ v) true
      | none => (backup_suffix, p)
    else
      match value_list.find? (fun v => v.isSuffixOf p) with
      | some v =>
        separate_suffixes_recurcive fuel (dropEnd p v.length) value_list
          (v ++ backup_suffix) false
      | none => (backup_suffix, p)

/-- `NameStructureInspector.separate_value_recursive`. -/
def separate_value_recursive (p : Str) (value_list : List Str) (start : Bool) :
    Str × Str :=
  separate_suffixes_recurcive (p.length + 1) p value_list [] start

/-- `NameStructureInspector.remove_prefix`:
`string[len(prefix):] if prefix and string.startswith(prefix) else string`. -/
def remove_prefix (string pre : Str) : Str :=
  if !pre.isEmpty && pre.isPrefixOf string then string.drop pre.length else string

/-! ## `process_category` and the per-part peeling loops

`process_category` is modelled as returning the value assignment for the key
(`none` for a key that is neither a known category nor `name`, which Python
leaves untouched) together with the remaining fragment; the enclosing loops
perform the dict update.  The loops `separate_category_start` /
`separate_category_end` iterate the part's keys in (reverse) insertion order
while only updating values, which for a unique-key ordered dict is exactly a
structural traversal of the association list. -/

/-- `NameStructureInspector.process_category`, returning
`(value assignment if any, remaining fragment)`. -/
def process_category (key : Str) (p : Str) (start : Bool) : Option Str × Str :=
  if key = str "symmetry" then
    let r := separate_value p SYMMETRY_OPTIONS start; (some r.1, r.2)
  else if key = str "type" then
    let r := separate_value p ALL_TYPES_DICT start; (some r.1, r.2)
  else if key = str "zoning" then
    let r := separate_value_recursive p ZONING_SINGLE_DICT start; (some r.1, r.2)
  else if key = str "orientation" then
    let r := separate_value_recursive p ORIENT_SINGLE_DICT start; (some r.1, r.2)
  else if key = str "alphabetical_inc" then
    let r := separate_value p ALPHABETICAL_LIST start; (some r.1, r.2)
  else if key = str "numerical_inc" then
    let r := separate_number p INC_NUMBER_OF_DIGITS start; (some r.1, r.2)
  else if key = str "name" then (some p, [])
  else (none, p)

/-- `NameStructureInspector.separate_category_start`: process keys in
insertion order, stopping right after `name` (which absorbs the fragment). -/
def separate_category_start : Part → Str → Part × Str
  | [], p => ([], p)
  | (k, v) :: rest, p =>
    let r := process_category k p true
    if k = str "name" then ((k, r.1.getD v) :: rest, r.2)
    else
      let rr := separate_category_start rest r.2
      ((k, r.1.getD v) :: rr.1, rr.2)

/-- Worker for `separate_category_end` on the reversed entry list: process
keys until `name` is reached, which receives the remainder with
`prefix_name` stripped; entries beyond `name` are left untouched. -/
def sepEndRev : Part → Str → Str → Part × Str
  | [], p, _ => ([], p)
  | (k, v) :: rest, p, prefix_name =>
    if k = str "name" then ((k, remove_prefix p prefix_name) :: rest, p)
    else
      let r := process_category k p false
      let rr := sepEndRev rest r.2 prefix_name
      ((k, r.1.getD v) :: rr.1, rr.2)

/-- `NameStructureInspector.separate_category_end`
(`for key in reversed(part_dict[part_index])`). -/
def separate_category_end (part : Part) (p prefix_name : Str) : Part × Str :=
  let r := sepEndRev part.reverse p prefix_name
  (r.1.reverse, r.2)

/-- `NameStructureInspector.handle_remaining_part`: leftover text in a part
without a `name` category becomes that part's `bad_naming` entry. -/
def handle_remaining_part (part : Part) (p : Str) : Part :=
  if hasKey part (str "name") then part else setVal part (str "bad_naming") p

/-- The effect of `NameStructureInspector.separate_category` on the single
part it touches, given the name segment `seg` it peels from. -/
def separate_category_part (seg : Str) (part : Part) (start : Bool)
    (prefix_name : Str) : Part :=
  let r := if start then separate_category_start part seg
           else separate_category_end part seg prefix_name
  if r.2.isEmpty then r.1 else handle_remaining_part r.1 r.2

/-- `NameStructureInspector.separate_category`: fetches segment
`name.split("_")[name_part_index]` and updates `part_dict[part_index]`. -/
def separate_category (name : Str) (part_index name_part_index : Nat)
    (parts : List Part) (start : Bool) (prefix_name : Str) : List Part :=
  let seg := (splitOn '_' name).getD name_part_index []
  modifyIdx (fun part => separate_category_part seg part start prefix_name)
    part_index parts

/-! ## `get_before_after_name` / `get_before_after_mandatory` -/

/-- Index of the first occurrence of `k` (Python `list.index`; call sites
guarantee membership). -/
def idxOf (k : Str) : List Str → Nat
  | [] => 0
  | x :: rest => if x = k then 0 else idxOf k rest + 1

/-- `NameStructureInspector.get_before_after_mandatory` (and, with
`k = "name"`, `get_before_after_name`): the keys before and after `k`. -/
def get_before_after_mandatory (k : Str) (keys : List Str) : List Str × List Str :=
  let pos := idxOf k keys
  if pos = 0 then ([], keys.drop 1)
  else if pos = keys.length - 1 then (keys.take pos, [])
  else (keys.take pos, keys.drop (pos + 1))

/-- `NameStructureInspector.get_before_after_name`. -/
def get_before_after_name (keys : List Str) : List Str × List Str :=
  get_before_after_mandatory (str "name") keys

/-- `NameStructureInspector.handle_bad_naming`: blank every other category of
the part, then delete its `bad_naming` entry. -/
def handle_bad_naming (part : Part) : Part :=
  eraseKey (part.map (fun kv => if kv.1 = str "bad_naming" then kv else (kv.1, ([] : Str))))
    (str "bad_naming")

/-! ## The three matching regimes of `inspect_name_structure` -/

/-- Underfilled regime (`name_lenght < len(mandatory_parts)`): assign the whole
input to the `name` category of the first part containing `name`. -/
def assignNameUnderfilled (name : Str) : List Part → List Part
  | [] => []
  | part :: rest =>
    if hasKey part (str "name") then setVal part (str "name") name :: rest
    else part :: assignNameUnderfilled name rest

/-- One iteration of the exact-regime `for index in list(part_dict.keys())`
loop (lines 101–123 of the source), threading the `prefix_name` accumulator
that Python initializes once before the loop. -/
def exactStep (name : Str) (i : Nat) (parts : List Part) (prefix_name : Str) :
    List Part × Str :=
  let part := parts.getD i []
  if hasKey part (str "name") then
    let ba := get_before_after_name (keysOf part)
    let parts1 :=
      if ba.1.isEmpty then parts
      else ba.1.foldl (fun ps _ => separate_category name i i ps true []) parts
    let prefix2 :=
      if !ba.2.isEmpty && !ba.1.isEmpty then
        ba.1.foldl (fun acc c => acc ++ getVal (parts1.getD i []) c) prefix_name
      else prefix_name
    let parts2 :=
      if ba.2.isEmpty then parts1
      else ba.2.reverse.foldl (fun ps _ => separate_category name i i ps false prefix2) parts1
    let parts3 :=
      if ba.1.isEmpty && ba.2.isEmpty then
        modifyIdx (fun part => setVal part (str "name") ((splitOn '_' name).getD i []))
          i parts2
      else parts2
    (parts3, prefix2)
  else
    let categories := keysOf part
    (categories.foldl (fun ps _ => separate_category name i i ps true []) parts,
      prefix_name)

/-- The exact-regime loop over all part indices. -/
def exactLoop (name : Str) : List Nat → List Part → Str → List Part
  | [], parts, _ => parts
  | i :: rest, parts, prefix_name =>
    let r := exactStep name i parts prefix_name
    exactLoop name rest r.1 r.2

/-! ### The traversal regime (`mandatory ≤ segments < parts`)

The source functions recurse into `traverse_name_parts` as their final
action; they are modelled as computing `(updated parts, next part_index,
next in_name_pos)` with `traverse_name_parts` performing the (fuel-measured)
recursion. -/

/-- `NameStructureInspector.check_optional_part` (minus the trailing recursive
call): greedily peel every category of the optional part from the segment
start, tracking whether anything matched. -/
def check_optional_part (name : Str) (len_name_parts part_index in_name_pos : Nat)
    (parts : List Part) : List Part × Nat × Nat :=
  let categories := keysOf (parts.getD part_index [])
  let st := categories.foldl
    (fun (st : List Part × Bool) c =>
      let ps := separate_category name part_index in_name_pos st.1 true []
      (ps, st.2 || !(getVal (ps.getD part_index []) c).isEmpty))
    (parts, false)
  if st.2 then (st.1, part_index + 1, in_name_pos + 1)
  else if hasKey (st.1.getD part_index []) (str "bad_naming")
      && decide (part_index ≠ len_name_parts) then
    (modifyIdx handle_bad_naming part_index st.1, part_index + 1, in_name_pos)
  else (st.1, part_index + 1, in_name_pos + 1)

/-- `NameStructureInspector.handle_name_category` (minus the trailing
recursive call). -/
def handle_name_category (name : Str) (part_index in_name_pos : Nat)
    (parts : List Part) : List Part × Nat × Nat :=
  let ba := get_before_after_name (keysOf (parts.getD part_index []))
  let parts1 :=
    if ba.1.isEmpty then parts
    else ba.1.foldl (fun ps _ => separate_category name part_index in_name_pos ps true [])
      parts
  let prefix_name :=
    if !ba.1.isEmpty then
      ba.1.foldl (fun acc c => acc ++ getVal (parts1.getD part_index []) c) []
    else []
  let parts2 :=
    if ba.2.isEmpty then parts1
    else ba.2.reverse.foldl
      (fun ps _ => separate_category name part_index in_name_pos ps false prefix_name)
      parts1
  let parts3 :=
    if ba.1.isEmpty && ba.2.isEmpty then
      modifyIdx
        (fun part => setVal part (str "name") ((splitOn '_' name).getD in_name_pos []))
        part_index parts2
    else parts2
  (parts3, part_index + 1, in_name_pos + 1)

/-- `NameStructureInspector.handle_other_mandatory_category` (minus the
trailing recursive call).  The source computes `before/after` for the last
part key belonging to `MANDATORY_CATEGORIES`, and its leaked loop variable
`category` is the part's last key.  (With no mandatory category in the part
the source would stop with an `UnboundLocalError`; that branch is modelled as
returning the parts unchanged and is not exercised below.) -/
def handle_other_mandatory_category (name : Str) (part_index in_name_pos : Nat)
    (parts : List Part) : List Part × Nat × Nat :=
  let keys := keysOf (parts.getD part_index [])
  match (keys.filter (fun k => MANDATORY_CATEGORIES.contains k)).getLast? with
  | none => (parts, part_index + 1, in_name_pos + 1)
  | some anchor =>
    let ba := get_before_after_mandatory anchor keys
    let parts1 :=
      if ba.1.isEmpty then parts
      else ba.1.foldl
        (fun ps _ => separate_category name part_index in_name_pos ps true []) parts
    let parts2 :=
      if ba.2.isEmpty then parts1
      else ba.2.reverse.foldl
        (fun ps _ => separate_category name part_index in_name_pos ps false []) parts1
    let parts3 :=
      if ba.1.isEmpty && ba.2.isEmpty then
        modifyIdx
          (fun part => setVal part (keys.getLastD []) ((splitOn '_' name).getD in_name_pos []))
          part_index parts2
      else parts2
    (parts3, part_index + 1, in_name_pos + 1)

/-- `NameStructureInspector.check_mandatory_part` (minus the trailing
recursive call). -/
def check_mandatory_part (name : Str) (part_index in_name_pos : Nat)
    (parts : List Part) : List Part × Nat × Nat :=
  if hasKey (parts.getD part_index []) (str "name") then
    handle_name_category name part_index in_name_pos parts
  else
    handle_other_mandatory_category name part_index in_name_pos parts

/-- `NameStructureInspector.traverse_name_parts`.  The source recursion
advances `part_index` by one on every call, so `len_name_parts + 1` fuel is
always sufficient. -/
def traverse_name_parts (name : Str) (len_name_parts : Nat) (fuel : Nat)
    (part_index in_name_pos : Nat) (optional_parts mandatory_parts : List Nat)
    (parts : List Part) : List Part :=
  match fuel with
  | 0 => parts
  | fuel + 1 =>
    if in_name_pos = (splitOn '_' name).length then parts
    else if optional_parts.contains part_index then
      let r := check_optional_part name len_name_parts part_index in_name_pos parts
      traverse_name_parts name len_name_parts fuel r.2.1 r.2.2 optional_parts
        mandatory_parts r.1
    else if mandatory_parts.contains part_index then
      let r := check_mandatory_part name part_index in_name_pos parts
      traverse_name_parts name len_name_parts fuel r.2.1 r.2.2 optional_parts
        mandatory_parts r.1
    else parts

/-! ## `inspect_name_structure` and `rebuilt_name` -/

/-- `NameStructureInspector.inspect_name_structure`. -/
def inspect_name_structure (name : Str) (name_structure : Str) : PartDict :=
  let len_name_parts := (splitTemplate name_structure).length
  let parts0 := compiledParts name_structure
  let name_lenght := (splitOn '_' name).length
  let optional_parts := optionalPartIndices name_structure
  let mandatory_parts := mandatoryPartIndices name_structure
  if name_lenght < mandatory_parts.length then
    ⟨assignNameUnderfilled name parts0, none⟩
  else if len_name_parts < name_lenght then
    ⟨parts0, some name⟩
  else if name_lenght = len_name_parts then
    ⟨exactLoop name (List.range len_name_parts) parts0 [], none⟩
  else
    ⟨traverse_name_parts name len_name_parts (len_name_parts + 1) 0 0 optional_parts
      mandatory_parts parts0, none⟩

/-- `NameStructureInspector.rebuilt_name`. -/
def rebuilt_name (pd : PartDict) : Str :=
  match pd.badTop with
  | some s => s
  | none =>
    stripChar '_'
      (pd.parts.foldl
        (fun acc part => if allEmpty part then acc else acc ++ concatValues part ++ ['_'])
        [])

/-! ## `OutlinerLogics.rename_non_unique_name` (outliner_logics.py)

The Maya scene (`mc.objExists`) is the abstract existence-checking
collaborator and is passed in as a boolean oracle.  The unbounded `while`
loops re-test existence after each increment; they are modelled with fuel and
return `none` on exhaustion (or where the source would raise a `TypeError` /
`IndexError`). -/

/-- Python `s.rpartition(c)`: split around the last occurrence of `c`,
or `('', '', s)` when `c` does not occur. -/
def rpartition (c : Char) : Str → Str × Str × Str
  | [] => ([], [], [])
  | x :: rest =>
    if (x :: rest).contains c then
      if rest.contains c then
        let r := rpartition c rest
        (x :: r.1, r.2.1, r.2.2)
      else ([], [c], rest)
    else ([], [], x :: rest)

/-- Python `str(n)` for a natural number. -/
def natStr (n : Nat) : Str := Nat.toDigits 10 n

/-- Python `f"{n:0{width}d}"`: decimal, zero-padded to `width` (never
truncated). -/
def padNum (width n : Nat) : Str :=
  let ds := natStr n
  List.replicate (width - ds.length) '0' ++ ds

/-- The scan `for index in name_part_dict: if "alphabetical_inc" in ...` over
the integer part indices: the first part holding an increment category
(alphabetical checked before numerical at each index). -/
def findIncIndex : List Part → Nat → Option (Bool × Nat)
  | [], _ => none
  | part :: rest, i =>
    if hasKey part (str "alphabetical_inc") then some (true, i)
    else if hasKey part (str "numerical_inc") then some (false, i)
    else findIncIndex rest (i + 1)

/-- One `set increment; rebuild; re-prefix the path` step of the increment
loops: returns the updated parts, the new short name and the new long name. -/
def incStep (incKey : Str) (incVal : Str) (i : Nat) (long : Str)
    (parts : List Part) (badTop : Option Str) : List Part × Str × Str :=
  let parts' := modifyIdx (fun part => setVal part incKey incVal) i parts
  let r := rpartition '|' long
  let new_short := rebuilt_name ⟨parts', badTop⟩
  (parts', new_short, r.1 ++ r.2.1 ++ new_short)

/-- The alphabetical-increment `while mc.objExists(long_name)` loop. -/
def alphaIncLoop (objExists : Str → Bool) (i : Nat) :
    Nat → Char → Str → List Part → Option Str → Option (Str × PartDict)
  | 0, _, _, _, _ => none
  | fuel + 1, a, long, parts, badTop =>
    let st := incStep (str "alphabetical_inc") [a] i long parts badTop
    if objExists st.2.2 then
      alphaIncLoop objExists i fuel (Char.ofNat (a.toNat + 1)) st.2.2 st.1 badTop
    else some (st.2.1, ⟨st.1, badTop⟩)

/-- The numerical-increment `while mc.objExists(long_name)` loop. -/
def numIncLoop (objExists : Str → Bool) (i : Nat) :
    Nat → Nat → Str → List Part → Option Str → Option (Str × PartDict)
  | 0, _, _, _, _ => none
  | fuel + 1, n, long, parts, badTop =>
    let st := incStep (str "numerical_inc") (padNum INC_NUMBER_OF_DIGITS n) i long
      parts badTop
    if objExists st.2.2 then
      numIncLoop objExists i fuel (n + 1) st.2.2 st.1 badTop
    else some (st.2.1, ⟨st.1, badTop⟩)

/-- The raw trailing-digit fallback loop
(`long_name = f"{long_name[:-1]}{suffix}"`). -/
def digitSuffixLoop (objExists : Str → Bool) :
    Nat → Str → Nat → Option Str
  | 0, _, _ => none
  | fuel + 1, long, suffix =>
    if objExists long then
      digitSuffixLoop objExists fuel (long.dropLast ++ natStr (suffix + 1)) (suffix + 1)
    else some long

/-- `OutlinerLogics.rename_non_unique_name`.  When the part dict carries a
top-level `bad_naming` string, the key scan tests `"alphabetical_inc" in s`
on that string (substring containment); a hit makes the source perform item
assignment on a string, raising `TypeError` — modelled as `none`. -/
def rename_non_unique_name (objExists : Str → Bool) (fuel : Nat) (long_name : Str)
    (pd : PartDict) (a_inc : Char) (n_inc : Nat) : Option (Str × PartDict) :=
  match findIncIndex pd.parts 0 with
  | some (true, i) => alphaIncLoop objExists i fuel a_inc long_name pd.parts pd.badTop
  | some (false, i) => numIncLoop objExists i fuel n_inc long_name pd.parts pd.badTop
  | none =>
    let hitsBad :=
      match pd.badTop with
      | some s =>
        containsSub (str "alphabetical_inc") s || containsSub (str "numerical_inc") s
      | none => false
    if hitsBad then none
    else
      match long_name.getLast? with
      | none => none
      | some c =>
        let r :=
          if c.isDigit then
            digitSuffixLoop objExists fuel
              (long_name.dropLast ++ natStr (c.toNat - '0'.toNat + 1))
              (c.toNat - '0'.toNat + 1)
          else digitSuffixLoop objExists fuel (long_name ++ [ '1' ]) 1
        match r with
        | none => none
        | some long => some ((splitOn '|' long).getLastD [], pd)

/-! ## `RenamerLogics.rename_with_type` (renamer_logics.py)

`for index in name_part_dict: if "type" in name_part_dict[index]: ...` — over
the integer part indices the `in` test is dict-key membership, but when the
top-level `bad_naming` key is present its value is the raw *string*, so the
test is substring containment and the subsequent item assignment on a string
raises `TypeError` (modelled as `Except.error ()`, as is the source's
`ValueError` on an empty input name). -/
def rename_with_type (name ty : Str) : Except Unit Str :=
  if name.isEmpty then Except.error ()
  else
    let pd := inspect_name_structure name NAME_STRUCTURE
    let parts' := pd.parts.map
      (fun part => if hasKey part (str "type") then setVal part (str "type") ty else part)
    match pd.badTop with
    | some s =>
      if containsSub (str "type") s then Except.error ()
      else Except.ok (rebuilt_name ⟨parts', some s⟩)
    | none => Except.ok (rebuilt_name ⟨parts', none⟩)

/-! ## Conformance (generative)

Modelled from the spec's data model (§3): a name *conforms* to a template
when it is the rebuild of some assignment of the template's category slots in
which every `EnumeratedValues` category holds a configured candidate (or is
empty), `zoning`/`orientation` hold a concatenation of their single tokens,
`numerical_inc` holds a correctly sized digit string (or is empty), and the
free-text `name` category is arbitrary. -/

/-- Is `v` a concatenation of (nonempty) tokens from `value_list`?  (Fuel is
one more than the length of `v`, which suffices.) -/
def isTokenConcat (value_list : List Str) : Nat → Str → Bool
  | _, [] => true
  | 0, _ => false
  | fuel + 1, v =>
    value_list.any (fun t =>
      !t.isEmpty && t.isPrefixOf v && isTokenConcat value_list fuel (v.drop t.length))

def tokenConcat (value_list : List Str) (v : Str) : Bool :=
  isTokenConcat value_list (v.length + 1) v

/-- Validity of one category slot's value under the default vocabularies. -/
def validCategoryValue (k v : Str) : Bool :=
  if k = str "name" then true
  else if k = str "symmetry" then v.isEmpty || SYMMETRY_OPTIONS.contains v
  else if k = str "type" then v.isEmpty || ALL_TYPES_DICT.contains v
  else if k = str "zoning" then tokenConcat ZONING_SINGLE_DICT v
  else if k = str "orientation" then tokenConcat ORIENT_SINGLE_DICT v
  else if k = str "alphabetical_inc" then v.isEmpty || ALPHABETICAL_LIST.contains v
  else if k = str "numerical_inc" then
    v.isEmpty || (decide (v.length = INC_NUMBER_OF_DIGITS) && v.all Char.isDigit)
  else v.isEmpty

/-- A `PartDict` is a valid assignment for a template when it has the
template's compiled key structure, no `bad_naming`, and valid values. -/
def ValidAssignment (pd : PartDict) (ns : Str) : Bool :=
  (pd.badTop matches none) &&
  decide (pd.parts.map keysOf = (compiledParts ns).map keysOf) &&
  pd.parts.all (fun part => part.all (fun kv => validCategoryValue kv.1 kv.2))

/-- A name conforms to a template when it is the rebuild of a valid
assignment. -/
def Conforms (n ns : Str) : Prop :=
  ∃ pd, ValidAssignment pd ns = true ∧ rebuilt_name pd = n

/-! ## Digit runs (for the numeric-increment claims) -/

/-- Length of the digit run at the start of a fragment. -/
def leadingDigitRun (s : Str) : Nat := (s.takeWhile Char.isDigit).length

/-- Length of the digit run at the end of a fragment. -/
def trailingDigitRun (s : Str) : Nat := (s.reverse.takeWhile Char.isDigit).length

/-! ## Mock scene collaborator for the uniqueness-resolution claim -/

/-- Existence oracle reporting exactly `obj_001` … `obj_010` as existing. -/
def objExistsMock (s : Str) : Bool :=
  ((List.range 10).map (fun k => str "obj_" ++ padNum 3 (k + 1))).contains s

/-! ## Safe templates (for the round-trip and idempotence claims)

The round-trip counterexample (claim C1) shows that a part placing matchable
categories both before and after `name` can peel overlapping prefix and
suffix values.  A template part is *safe* when it declares at least one
category, does not declare the reserved `bad_naming` sentinel, and — if it
contains `name` — has its categories on one side of `name` only.  Every part
of the default template is safe. -/

def SafePart (part : Part) : Prop :=
  part ≠ [] ∧ hasKey part (str "bad_naming") = false ∧
  (hasKey part (str "name") = true →
    (get_before_after_name (keysOf part)).1 = [] ∨
    (get_before_after_name (keysOf part)).2 = [])

def SafeTemplate (ns : Str) : Prop := ∀ part ∈ compiledParts ns, SafePart part

instance decidableSafePart (part : Part) : Decidable (SafePart part) := by
  unfold SafePart
  infer_instance

instance decidableSafeTemplate (ns : Str) : Decidable (SafeTemplate ns) := by
  unfold SafeTemplate
  infer_instance

/-! # Theorems -/

theorem collectUntilClose_length {s cnt rem : Str}
    (h : collectUntilClose s = some (cnt, rem)) : rem.length < s.length := by
  induction s generalizing cnt rem with
  | nil => simp [collectUntilClose] at h
  | cons c rest ih =>
    rw [collectUntilClose] at h
    by_cases hc : c = ']'
    · rw [if_pos hc] at h
      cases h
      simp
    · rw [if_neg hc] at h
      cases hr : collectUntilClose rest with
      | none => rw [hr] at h; exact absurd h (by simp)
      | some p =>
        rw [hr] at h
        cases p with
        | mk cnt' rem' =>
          have hrec := ih hr
          simp at h
          rw [← h.2]
          simp
          omega

/-! ## Splitting and joining on the underscore separator -/

theorem splitOn_ne_nil (c : Char) (s : Str) : splitOn c s ≠ [] := by
  cases s with
  | nil => simp [splitOn]
  | cons x rest =>
    rw [splitOn]
    by_cases hx : x = c
    · simp [hx]
    · rw [if_neg hx]
      cases h : splitOn c rest with
      | nil => simp [consHead]
      | cons a l => simp [consHead]

theorem joinSep_splitOn (c : Char) (s : Str) : joinSep c (splitOn c s) = s := by
  induction s with
  | nil => rfl
  | cons x rest ih =>
    rw [splitOn]
    by_cases hx : x = c
    · rw [if_pos hx]
      subst hx
      cases h : splitOn x rest with
      | nil => exact absurd h (splitOn_ne_nil x rest)
      | cons a l =>
        rw [h] at ih
        show ([] : Str) ++ x :: joinSep x (a :: l) = x :: rest
        rw [List.nil_append, ih]
    · rw [if_neg hx]
      cases h : splitOn c rest with
      | nil => exact absurd h (splitOn_ne_nil c rest)
      | cons a l =>
        rw [h] at ih
        rw [consHead]
        cases l with
        | nil =>
          show x :: a = x :: rest
          exact congrArg (x :: ·) ih
        | cons b l' =>
          show (x :: a) ++ c :: joinSep c (b :: l') = x :: rest
          rw [List.cons_append]
          exact congrArg (x :: ·) ih

theorem splitOn_no_sep (c : Char) (s : Str) :
    ∀ piece ∈ splitOn c s, c ∉ piece := by
  induction s with
  | nil =>
    intro piece hp
    simp [splitOn] at hp
    simp [hp]
  | cons x rest ih =>
    intro piece hp
    rw [splitOn] at hp
    by_cases hx : x = c
    · rw [if_pos hx] at hp
      rcases List.mem_cons.mp hp with h | h
      · simp [h]
      · exact ih piece h
    · rw [if_neg hx] at hp
      cases h : splitOn c rest with
      | nil => exact absurd h (splitOn_ne_nil c rest)
      | cons a l =>
        rw [h, consHead] at hp
        rcases List.mem_cons.mp hp with hh | hh
        · subst hh
          intro hmem
          rcases List.mem_cons.mp hmem with h1 | h1
          · exact hx h1.symm
          · exact ih a (by rw [h]; exact List.mem_cons_self a l) h1
        · exact ih piece (by rw [h]; exact List.mem_cons_of_mem a hh)

/-! ## Association-list (part dict) lemmas -/

theorem hasKey_iff (part : Part) (k : Str) :
    hasKey part k = true ↔ k ∈ keysOf part := by
  induction part with
  | nil => simp [hasKey, keysOf]
  | cons kv rest ih =>
    cases kv with
    | mk k' v =>
      rw [hasKey, keysOf]
      simp only [List.map_cons, List.mem_cons, Bool.or_eq_true, decide_eq_true_eq]
      rw [ih]
      constructor
      · rintro (h | h)
        · exact Or.inl h.symm
        · exact Or.inr h
      · rintro (h | h)
        · exact Or.inl h.symm
        · exact Or.inr h

theorem concatValues_nil : concatValues [] = [] := rfl

theorem concatValues_cons (kv : Str × Str) (rest : Part) :
    concatValues (kv :: rest) = kv.2 ++ concatValues rest := by
  simp [concatValues]

theorem concatValues_append (p q : Part) :
    concatValues (p ++ q) = concatValues p ++ concatValues q := by
  simp [concatValues]

theorem concatValues_reverse_cons (kv : Str × Str) (rest : Part) :
    concatValues ((kv :: rest).reverse) = concatValues rest.reverse ++ kv.2 := by
  rw [List.reverse_cons, concatValues_append, concatValues_cons, concatValues_nil,
    List.append_nil]

theorem concatValues_of_allEmpty {part : Part} (h : allEmpty part = true) :
    concatValues part = [] := by
  induction part with
  | nil => rfl
  | cons kv rest ih =>
    rw [allEmpty, List.all_cons, Bool.and_eq_true] at h
    rw [concatValues_cons, List.isEmpty_iff.mp h.1, List.nil_append]
    exact ih h.2

theorem not_allEmpty_of_concat_ne {part : Part} (h : concatValues part ≠ []) :
    allEmpty part = false := by
  cases he : allEmpty part with
  | false => rfl
  | true => exact absurd (concatValues_of_allEmpty he) h

theorem length_modifyIdx {α : Type} (f : α → α) (i : Nat) (l : List α) :
    (modifyIdx f i l).length = l.length := by
  induction l generalizing i with
  | nil => cases i <;> rfl
  | cons a rest ih =>
    cases i with
    | zero => rfl
    | succ n => simp [modifyIdx, ih]

theorem getD_modifyIdx_self {α : Type} (f : α → α) (d : α) {i : Nat} {l : List α}
    (h : i < l.length) : (modifyIdx f i l).getD i d = f (l.getD i d) := by
  induction l generalizing i with
  | nil => simp at h
  | cons a rest ih =>
    cases i with
    | zero => rfl
    | succ n =>
      rw [modifyIdx]
      simp only [List.getD_cons_succ]
      exact ih (by simpa using h)

theorem getD_modifyIdx_ne {α : Type} (f : α → α) (d : α) {i j : Nat} (l : List α)
    (h : j ≠ i) : (modifyIdx f i l).getD j d = l.getD j d := by
  induction l generalizing i j with
  | nil => cases i <;> rfl
  | cons a rest ih =>
    cases i with
    | zero =>
      cases j with
      | zero => exact absurd rfl h
      | succ m => rfl
    | succ n =>
      cases j with
      | zero => rfl
      | succ m =>
        rw [modifyIdx]
        simp only [List.getD_cons_succ]
        exact ih (by omega)

theorem modifyIdx_modifyIdx {α : Type} (f g : α → α) (i : Nat) (l : List α) :
    modifyIdx f i (modifyIdx g i l) = modifyIdx (fun a => f (g a)) i l := by
  induction l generalizing i with
  | nil => cases i <;> rfl
  | cons a rest ih =>
    cases i with
    | zero => rfl
    | succ n => simp [modifyIdx, ih]

/-- A fold that ignores the list elements and applies an idempotent function
collapses to a single application (for a nonempty list). -/
theorem foldl_const_idem {α β : Type} (f : α → α) (x : α) (hf : f (f x) = f x) :
    ∀ (l : List β), l ≠ [] → l.foldl (fun a _ => f a) x = f x := by
  have haux : ∀ (l : List β) (y : α), f y = y → l.foldl (fun a _ => f a) y = y := by
    intro l
    induction l with
    | nil => intro y _; rfl
    | cons b rest ih =>
      intro y hy
      rw [List.foldl_cons, hy]
      exact ih y hy
  intro l hl
  cases l with
  | nil => exact absurd rfl hl
  | cons b rest =>
    rw [List.foldl_cons]
    exact haux rest (f x) hf

/-! ## Peel soundness: every matched value is exactly the consumed text -/

theorem separate_value_start_sound (p : Str) (vl : List Str) :
    (separate_value p vl true).1 ++ (separate_value p vl true).2 = p := by
  induction vl with
  | nil => simp [separate_value]
  | cons w rest ih =>
    rw [separate_value]
    cases hw : w.isPrefixOf p with
    | true =>
      simp only [hw, Bool.true_and, if_true]
      obtain ⟨t, ht⟩ := List.isPrefixOf_iff_prefix.mp hw
      subst ht
      simp
    | false =>
      simp only [hw, Bool.true_and, Bool.false_and, Bool.and_false, if_false,
        Bool.not_true]
      exact ih

theorem separate_value_end_sound (p : Str) (vl : List Str)
    (hvl : ∀ w ∈ vl, w ≠ []) :
    (separate_value p vl false).2 ++ (separate_value p vl false).1 = p := by
  induction vl with
  | nil => simp [separate_value]
  | cons w rest ih =>
    rw [separate_value]
    cases hw : w.isSuffixOf p with
    | true =>
      have hwne := hvl w (List.mem_cons_self w rest)
      obtain ⟨t, ht⟩ := List.isSuffixOf_iff_suffix.mp hw
      subst ht
      simp only [hw, Bool.false_and, if_false, Bool.not_false, Bool.true_and, if_true,
        Bool.false_eq_true, dropEnd]
      rw [if_neg (show ¬(List.length w = 0) by simpa using hwne)]
      have hlen : (t ++ w).length - List.length w = t.length := by simp
      rw [hlen, List.take_left]
    | false =>
      simp only [hw, Bool.false_and, if_false, Bool.not_false, Bool.true_and,
        Bool.and_false, Bool.false_eq_true]
      exact ih fun w hw => hvl w (List.mem_cons_of_mem _ hw)

theorem separate_number_start_sound (p : Str) (d : Nat) :
    (separate_number p d true).1 ++ (separate_number p d true).2 = p := by
  rw [separate_number]
  simp only [Bool.true_and, Bool.not_true, Bool.false_and, Bool.false_eq_true, if_false]
  split_ifs with h <;> simp

theorem separate_number_end_sound (p : Str) (d : Nat) :
    (separate_number p d false).2 ++ (separate_number p d false).1 = p := by
  rw [separate_number]
  simp only [Bool.false_and, Bool.false_eq_true, if_false, Bool.not_false, Bool.true_and]
  split_ifs with h
  · rw [takeEnd]
    exact List.take_append_drop _ p
  · simp

theorem separate_suffixes_start_decomp (fuel : Nat) (p : Str) (vl : List Str)
    (acc : Str) :
    ∃ m, (separate_suffixes_recurcive fuel p vl acc true).1 = acc ++ m ∧
      m ++ (separate_suffixes_recurcive fuel p vl acc true).2 = p := by
  induction fuel generalizing p acc with
  | zero => exact ⟨[], by simp [separate_suffixes_recurcive]⟩
  | succ fuel ih =>
    rw [separate_suffixes_recurcive]
    simp only [if_true]
    cases hf : vl.find? (fun v => v.isPrefixOf p) with
    | none => exact ⟨[], by simp⟩
    | some v =>
      have hpre := List.find?_some hf
      simp only [] at hpre
      obtain ⟨t, ht⟩ := List.isPrefixOf_iff_prefix.mp hpre
      obtain ⟨m', hm1, hm2⟩ := ih (p.drop v.length) (acc ++ v)
      refine ⟨v ++ m', ?_, ?_⟩
      · rw [hm1, List.append_assoc]
      · rw [List.append_assoc, hm2, ← ht, List.drop_left]

theorem separate_suffixes_end_decomp (fuel : Nat) (p : Str) (vl : List Str)
    (acc : Str) (hvl : ∀ w ∈ vl, w ≠ []) :
    ∃ m, (separate_suffixes_recurcive fuel p vl acc false).1 = m ++ acc ∧
      (separate_suffixes_recurcive fuel p vl acc false).2 ++ m = p := by
  induction fuel generalizing p acc with
  | zero => exact ⟨[], by simp [separate_suffixes_recurcive]⟩
  | succ fuel ih =>
    rw [separate_suffixes_recurcive]
    simp only [if_false, Bool.false_eq_true]
    cases hf : vl.find? (fun v => v.isSuffixOf p) with
    | none => exact ⟨[], by simp⟩
    | some v =>
      have hsuf := List.find?_some hf
      simp only [] at hsuf
      obtain ⟨t, ht⟩ := List.isSuffixOf_iff_suffix.mp hsuf
      have hvne := hvl v (List.mem_of_find?_eq_some hf)
      obtain ⟨m', hm1, hm2⟩ := ih (dropEnd p v.length) (v ++ acc)
      refine ⟨m' ++ v, ?_, ?_⟩
      · rw [hm1, List.append_assoc]
      · rw [← List.append_assoc, hm2, dropEnd, if_neg (by simpa using hvne), ← ht]
        have : (t ++ v).length - v.length = t.length := by simp
        rw [this, List.take_left]

theorem separate_value_recursive_start_sound (p : Str) (vl : List Str) :
    (separate_value_recursive p vl true).1 ++
      (separate_value_recursive p vl true).2 = p := by
  obtain ⟨m, hm1, hm2⟩ := separate_suffixes_start_decomp (p.length + 1) p vl []
  rw [separate_value_recursive, hm1, List.nil_append, hm2]

theorem separate_value_recursive_end_sound (p : Str) (vl : List Str)
    (hvl : ∀ w ∈ vl, w ≠ []) :
    (separate_value_recursive p vl false).2 ++
      (separate_value_recursive p vl false).1 = p := by
  obtain ⟨m, hm1, hm2⟩ := separate_suffixes_end_decomp (p.length + 1) p vl [] hvl
  rw [separate_value_recursive, hm1, List.append_nil, hm2]

theorem symmetry_values_ne_nil : ∀ w ∈ SYMMETRY_OPTIONS, w ≠ [] := by decide
theorem types_values_ne_nil : ∀ w ∈ ALL_TYPES_DICT, w ≠ [] := by decide
theorem zoning_values_ne_nil : ∀ w ∈ ZONING_SINGLE_DICT, w ≠ [] := by decide
theorem orient_values_ne_nil : ∀ w ∈ ORIENT_SINGLE_DICT, w ≠ [] := by decide
theorem alphabetical_values_ne_nil : ∀ w ∈ ALPHABETICAL_LIST, w ≠ [] := by decide

theorem process_category_start_sound (k p : Str) :
    ((process_category k p true).1).getD [] ++ (process_category k p true).2 = p := by
  rw [process_category]
  split_ifs <;>
    simp [separate_value_start_sound, separate_value_recursive_start_sound,
      separate_number_start_sound]

theorem process_category_end_sound (k p : Str) :
    (process_category k p false).2 ++ ((process_category k p false).1).getD [] = p := by
  rw [process_category]
  split_ifs <;>
    simp [separate_value_end_sound p SYMMETRY_OPTIONS symmetry_values_ne_nil,
      separate_value_end_sound p ALL_TYPES_DICT types_values_ne_nil,
      separate_value_end_sound p ALPHABETICAL_LIST alphabetical_values_ne_nil,
      separate_value_recursive_end_sound p ZONING_SINGLE_DICT zoning_values_ne_nil,
      separate_value_recursive_end_sound p ORIENT_SINGLE_DICT orient_values_ne_nil,
      separate_number_end_sound]

/-! ## Key preservation and reprocessing stability of the peel loops -/

theorem keysOf_separate_category_start (part : Part) (p : Str) :
    keysOf (separate_category_start part p).1 = keysOf part := by
  induction part generalizing p with
  | nil => rfl
  | cons kv rest ih =>
    cases kv with
    | mk k v =>
      rw [separate_category_start]
      by_cases hk : k = str "name"
      · rw [if_pos hk]
        simp [keysOf]
      · rw [if_neg hk]
        simp only [keysOf, List.map_cons, List.cons.injEq, true_and]
        exact ih _

theorem keysOf_sepEndRev (part : Part) (p pre : Str) :
    keysOf (sepEndRev part p pre).1 = keysOf part := by
  induction part generalizing p with
  | nil => rfl
  | cons kv rest ih =>
    cases kv with
    | mk k v =>
      rw [sepEndRev]
      by_cases hk : k = str "name"
      · rw [if_pos hk]
        simp [keysOf]
      · rw [if_neg hk]
        simp only [keysOf, List.map_cons, List.cons.injEq, true_and]
        exact ih _

theorem keysOf_separate_category_end (part : Part) (p pre : Str) :
    keysOf (separate_category_end part p pre).1 = keysOf part := by
  rw [separate_category_end]
  have h := keysOf_sepEndRev part.reverse p pre
  simp only [keysOf] at h ⊢
  rw [List.map_reverse, h, List.map_reverse, List.reverse_reverse]

theorem getD_getD (a : Option Str) (v : Str) : a.getD (a.getD v) = a.getD v := by
  cases a <;> rfl

theorem separate_category_start_stable (part : Part) (p : Str) :
    separate_category_start (separate_category_start part p).1 p =
      separate_category_start part p := by
  induction part generalizing p with
  | nil => rfl
  | cons kv rest ih =>
    cases kv with
    | mk k v =>
      rw [separate_category_start]
      by_cases hk : k = str "name"
      · rw [if_pos hk]
        rw [separate_category_start, if_pos hk, getD_getD]
      · rw [if_neg hk]
        rw [separate_category_start, if_neg hk, getD_getD, ih]

theorem sepEndRev_stable (part : Part) (p pre : Str) :
    sepEndRev (sepEndRev part p pre).1 p pre = sepEndRev part p pre := by
  induction part generalizing p with
  | nil => rfl
  | cons kv rest ih =>
    cases kv with
    | mk k v =>
      rw [sepEndRev]
      by_cases hk : k = str "name"
      · rw [if_pos hk]
        rw [sepEndRev, if_pos hk]
      · rw [if_neg hk]
        rw [sepEndRev, if_neg hk]
        dsimp only
        rw [getD_getD, ih]

/-- The start loop empties the fragment as soon as the part contains
`name`. -/
theorem separate_category_start_rest_of_name (part : Part) (p : Str)
    (h : hasKey part (str "name") = true) :
    (separate_category_start part p).2 = [] := by
  induction part generalizing p with
  | nil => simp [hasKey] at h
  | cons kv rest ih =>
    cases kv with
    | mk k v =>
      rw [separate_category_start]
      by_cases hk : k = str "name"
      · rw [if_pos hk]
        subst hk
        rfl
      · rw [if_neg hk]
        rw [hasKey] at h
        simp only [Bool.or_eq_true, decide_eq_true_eq] at h
        rcases h with h | h
        · exact absurd h hk
        · exact ih _ h

/-! ## More association-list utilities -/

theorem hasKey_eq_mem (part : Part) (k : Str) :
    hasKey part k = decide (k ∈ keysOf part) := by
  by_cases h : k ∈ keysOf part
  · rw [(hasKey_iff part k).mpr h, decide_eq_true h]
  · rw [decide_eq_false h]
    cases hh : hasKey part k with
    | false => rfl
    | true => exact absurd ((hasKey_iff part k).mp hh) h

theorem hasKey_reverse (part : Part) (k : Str) :
    hasKey part.reverse k = hasKey part k := by
  rw [hasKey_eq_mem, hasKey_eq_mem]
  congr 1
  simp [keysOf, List.map_reverse]

theorem hasKey_append (p q : Part) (k : Str) :
    hasKey (p ++ q) k = (hasKey p k || hasKey q k) := by
  induction p with
  | nil => simp [hasKey]
  | cons kv rest ih =>
    cases kv with
    | mk k' v => rw [List.cons_append, hasKey, hasKey, ih, Bool.or_assoc]

theorem allEmpty_reverse (part : Part) : allEmpty part.reverse = allEmpty part := by
  simp [allEmpty]

theorem setVal_of_not_hasKey (part : Part) (k v : Str)
    (h : hasKey part k = false) : setVal part k v = part ++ [(k, v)] := by
  induction part with
  | nil => rfl
  | cons kv rest ih =>
    cases kv with
    | mk k' v' =>
      rw [hasKey, Bool.or_eq_false_iff] at h
      rw [setVal, if_neg (by simpa using h.1), List.cons_append, ih h.2]

theorem setVal_of_getVal_eq (part : Part) (k v : Str)
    (hh : hasKey part k = true) (hv : getVal part k = v) : setVal part k v = part := by
  induction part with
  | nil => simp [hasKey] at hh
  | cons kv rest ih =>
    cases kv with
    | mk k' v' =>
      rw [setVal]
      by_cases hk : k' = k
      · rw [if_pos hk]
        rw [getVal, if_pos hk] at hv
        rw [hk, hv]
      · rw [if_neg hk]
        rw [hasKey, Bool.or_eq_true] at hh
        rcases hh with h | h
        · exact absurd (by simpa using h) hk
        · rw [getVal, if_neg hk] at hv
          rw [ih h hv]

theorem getVal_append_of_not_hasKey (p q : Part) (k : Str)
    (h : hasKey p k = false) : getVal (p ++ q) k = getVal q k := by
  induction p with
  | nil => rfl
  | cons kv rest ih =>
    cases kv with
    | mk k' v' =>
      rw [hasKey, Bool.or_eq_false_iff] at h
      rw [List.cons_append, getVal, if_neg (by simpa using h.1), ih h.2]

/-! ## Per-part reconstruction: the peeled values concatenate back to the
segment -/

theorem separate_category_start_concat_of_name (part : Part) (p : Str)
    (hname : hasKey part (str "name") = true) (hinit : allEmpty part = true) :
    concatValues (separate_category_start part p).1 = p := by
  induction part generalizing p with
  | nil => simp [hasKey] at hname
  | cons kv rest ih =>
    obtain ⟨k, v⟩ := kv
    rw [allEmpty, List.all_cons, Bool.and_eq_true] at hinit
    have hv : v = [] := List.isEmpty_iff.mp hinit.1
    subst hv
    rw [separate_category_start]
    by_cases hk : k = str "name"
    · rw [if_pos hk]
      subst hk
      have hp : process_category (str "name") p true = (some p, []) := rfl
      rw [concatValues_cons, hp]
      rw [concatValues_of_allEmpty hinit.2]
      simp
    · rw [if_neg hk]
      rw [hasKey, Bool.or_eq_true] at hname
      rcases hname with h | h
      · exact absurd (by simpa using h) hk
      · dsimp only
        rw [concatValues_cons, ih _ h hinit.2]
        exact process_category_start_sound k p

theorem separate_category_start_concat_no_name (part : Part) (p : Str)
    (hname : hasKey part (str "name") = false) (hinit : allEmpty part = true) :
    concatValues (separate_category_start part p).1 ++
      (separate_category_start part p).2 = p := by
  induction part generalizing p with
  | nil => simp [separate_category_start, concatValues]
  | cons kv rest ih =>
    obtain ⟨k, v⟩ := kv
    rw [allEmpty, List.all_cons, Bool.and_eq_true] at hinit
    have hv : v = [] := List.isEmpty_iff.mp hinit.1
    subst hv
    rw [hasKey, Bool.or_eq_false_iff] at hname
    rw [separate_category_start, if_neg (by simpa using hname.1)]
    dsimp only
    rw [concatValues_cons, List.append_assoc, ih _ hname.2 hinit.2]
    exact process_category_start_sound k p

theorem sepEndRev_concat_decomp (q : Part) (v₀ p : Str)
    (hq : hasKey q (str "name") = false) (hqv : allEmpty q = true) :
    ∃ q' p', sepEndRev (q ++ [(str "name", v₀)]) p [] = (q' ++ [(str "name", p')], p') ∧
      p' ++ concatValues q'.reverse = p := by
  induction q generalizing p with
  | nil =>
    refine ⟨[], p, ?_, by simp [concatValues]⟩
    rw [List.nil_append, sepEndRev, if_pos rfl]
    rfl
  | cons kv q ih =>
    obtain ⟨k, v⟩ := kv
    rw [allEmpty, List.all_cons, Bool.and_eq_true] at hqv
    rw [hasKey, Bool.or_eq_false_iff] at hq
    rw [List.cons_append, sepEndRev, if_neg (by simpa using hq.1)]
    dsimp only
    obtain ⟨q'', p'', heq, hcat⟩ := ih ((process_category k p false).2) hq.2 hqv.2
    rw [heq]
    refine ⟨(k, (process_category k p false).1.getD v) :: q'', p'', by
      rw [List.cons_append], ?_⟩
    have hv : v = [] := List.isEmpty_iff.mp hqv.1
    subst hv
    rw [concatValues_reverse_cons, ← List.append_assoc, hcat]
    exact process_category_end_sound k p

theorem separate_category_end_concat_name_first (post : Part) (v₀ p : Str)
    (hpost : hasKey post (str "name") = false) (hpv : allEmpty post = true) :
    concatValues (separate_category_end ((str "name", v₀) :: post) p []).1 = p ∧
    hasKey (separate_category_end ((str "name", v₀) :: post) p []).1
      (str "name") = true := by
  rw [separate_category_end]
  dsimp only
  rw [List.reverse_cons]
  obtain ⟨q', p', heq, hcat⟩ := sepEndRev_concat_decomp post.reverse v₀ p
    (by rw [hasKey_reverse]; exact hpost) (by rw [allEmpty_reverse]; exact hpv)
  rw [heq]
  constructor
  · rw [List.reverse_append]
    simp only [List.reverse_cons, List.reverse_nil, List.nil_append]
    rw [List.singleton_append, concatValues_cons, hcat]
  · rw [List.reverse_append]
    simp [hasKey]

/-! ## First-occurrence index and the before/after split -/

theorem idxOf_lt_length {k : Str} {l : List Str} (h : k ∈ l) :
    idxOf k l < l.length := by
  induction l with
  | nil => simp at h
  | cons x rest ih =>
    rw [idxOf]
    by_cases hx : x = k
    · rw [if_pos hx]
      simp
    · rw [if_neg hx]
      have : k ∈ rest := by
        rcases List.mem_cons.mp h with h' | h'
        · exact absurd h'.symm hx
        · exact h'
      simpa using ih this

theorem take_idxOf_append {k : Str} {l : List Str} (h : k ∈ l) :
    l.take (idxOf k l) ++ k :: l.drop (idxOf k l + 1) = l := by
  induction l with
  | nil => simp at h
  | cons x rest ih =>
    rw [idxOf]
    by_cases hx : x = k
    · rw [if_pos hx]
      simp [hx]
    · rw [if_neg hx]
      have hmem : k ∈ rest := by
        rcases List.mem_cons.mp h with h' | h'
        · exact absurd h'.symm hx
        · exact h'
      rw [List.take_succ_cons, List.drop_succ_cons, List.cons_append, ih hmem]

theorem not_mem_take_idxOf (k : Str) (l : List Str) :
    k ∉ l.take (idxOf k l) := by
  induction l with
  | nil => simp
  | cons x rest ih =>
    rw [idxOf]
    by_cases hx : x = k
    · rw [if_pos hx]
      simp
    · rw [if_neg hx]
      rw [List.take_succ_cons]
      intro hmem
      rcases List.mem_cons.mp hmem with h' | h'
      · exact hx h'.symm
      · exact ih h'

theorem gbam_eq (k : Str) (keys : List Str) (hk : k ∈ keys) :
    get_before_after_mandatory k keys =
      (keys.take (idxOf k keys), keys.drop (idxOf k keys + 1)) := by
  rw [get_before_after_mandatory]
  by_cases h0 : idxOf k keys = 0
  · rw [if_pos h0, h0]
    simp
  · rw [if_neg h0]
    by_cases hl : idxOf k keys = keys.length - 1
    · rw [if_pos hl]
      have hlen := idxOf_lt_length hk
      rw [List.drop_eq_nil_of_le (by omega)]
    · rw [if_neg hl]

theorem keys_decomp_of_name (keys : List Str) (hk : (str "name") ∈ keys)
    (hnd : keys.Nodup) :
    keys = (get_before_after_name keys).1 ++
        (str "name") :: (get_before_after_name keys).2 ∧
    (str "name") ∉ (get_before_after_name keys).1 ∧
    (str "name") ∉ (get_before_after_name keys).2 := by
  rw [get_before_after_name, gbam_eq _ _ hk]
  refine ⟨(take_idxOf_append hk).symm, not_mem_take_idxOf _ _, ?_⟩
  have hsplit := take_idxOf_append hk
  rw [← hsplit] at hnd
  have h2 := hnd.of_append_right
  exact (List.nodup_cons.mp h2).1

theorem part_decomp_of_keys {part : Part} {A B : List Str} {k : Str}
    (h : keysOf part = A ++ k :: B) :
    ∃ p1 v p2, part = p1 ++ (k, v) :: p2 ∧ keysOf p1 = A ∧ keysOf p2 = B := by
  induction part generalizing A with
  | nil => simp [keysOf] at h
  | cons kv rest ih =>
    rw [keysOf, List.map_cons] at h
    cases A with
    | nil =>
      rw [List.nil_append] at h
      obtain ⟨h1, h2⟩ := List.cons.inj h
      refine ⟨[], kv.2, rest, ?_, rfl, h2⟩
      rw [List.nil_append, ← h1]
    | cons a A' =>
      rw [List.cons_append] at h
      obtain ⟨h1, h2⟩ := List.cons.inj h
      obtain ⟨p1, v, p2, hp, hk1, hk2⟩ := ih h2
      refine ⟨kv :: p1, v, p2, ?_, ?_, hk2⟩
      · rw [hp, List.cons_append]
      · rw [keysOf, List.map_cons, h1]
        rw [keysOf] at hk1
        rw [hk1]

/-! ## Compiled parts are well-formed -/

theorem dedupeAux_nodup (l : List Str) :
    ∀ seen, (dedupeAux seen l).Nodup ∧ ∀ x ∈ dedupeAux seen l, x ∉ seen := by
  induction l with
  | nil => intro seen; simp [dedupeAux]
  | cons x rest ih =>
    intro seen
    rw [dedupeAux]
    by_cases hx : seen.contains x
    · rw [if_pos hx]
      exact ⟨(ih seen).1, (ih seen).2⟩
    · rw [if_neg hx]
      have h2 := ih (x :: seen)
      refine ⟨List.nodup_cons.mpr ⟨?_, h2.1⟩, ?_⟩
      · intro hmem
        exact h2.2 x hmem (List.mem_cons_self x seen)
      · intro y hy hseen
        rcases List.mem_cons.mp hy with h' | h'
        · rw [h'] at hseen
          have hx' : x ∉ seen := by simpa using hx
          exact hx' hseen
        · exact h2.2 y h' (List.mem_cons_of_mem x hseen)

theorem dedupe_nodup (l : List Str) : (dedupe l).Nodup := (dedupeAux_nodup l []).1

theorem keysOf_initPart (s : Str) :
    keysOf (initPart s) = dedupe ((findBrackets s).map stripBrackets) := by
  rw [initPart, keysOf, List.map_map]
  have hcomp : (Prod.fst ∘ fun k : Str => (k, ([] : Str))) = id := rfl
  rw [hcomp, List.map_id]

theorem initPart_keys_nodup (s : Str) : (keysOf (initPart s)).Nodup := by
  rw [keysOf_initPart]
  exact dedupe_nodup _

theorem initPart_allEmpty (s : Str) : allEmpty (initPart s) = true := by
  simp only [initPart, allEmpty, List.all_eq_true, List.mem_map]
  rintro kv ⟨k, hk, rfl⟩
  rfl

/-! ## Stability of `separate_category_part` under reprocessing -/

theorem separate_category_part_start_eq (seg : Str) (part : Part) (pre : Str) :
    separate_category_part seg part true pre =
      (if (separate_category_start part seg).2.isEmpty
        then (separate_category_start part seg).1
        else handle_remaining_part (separate_category_start part seg).1
          (separate_category_start part seg).2) := rfl

theorem separate_category_part_end_eq (seg : Str) (part : Part) (pre : Str) :
    separate_category_part seg part false pre =
      (if (separate_category_end part seg pre).2.isEmpty
        then (separate_category_end part seg pre).1
        else handle_remaining_part (separate_category_end part seg pre).1
          (separate_category_end part seg pre).2) := rfl

theorem scp_start_of_name (seg : Str) (part : Part) (pre : Str)
    (hname : hasKey part (str "name") = true) :
    separate_category_part seg part true pre = (separate_category_start part seg).1 := by
  rw [separate_category_part_start_eq]
  rw [separate_category_start_rest_of_name part seg hname]
  rfl

theorem scp_start_name_stable (seg : Str) (part : Part) (pre : Str)
    (hname : hasKey part (str "name") = true) :
    separate_category_part seg (separate_category_part seg part true pre) true pre =
      separate_category_part seg part true pre := by
  rw [scp_start_of_name seg part pre hname]
  have hname2 : hasKey (separate_category_start part seg).1 (str "name") = true := by
    rw [hasKey_eq_mem, keysOf_separate_category_start, ← hasKey_eq_mem]
    exact hname
  rw [scp_start_of_name seg _ pre hname2, separate_category_start_stable]

theorem scp_end_of_name (seg : Str) (part : Part) (pre : Str)
    (hname : hasKey part (str "name") = true) :
    separate_category_part seg part false pre =
      (separate_category_end part seg pre).1 := by
  rw [separate_category_part_end_eq]
  split_ifs with h
  · rfl
  · rw [handle_remaining_part, if_pos]
    rw [hasKey_eq_mem, keysOf_separate_category_end, ← hasKey_eq_mem]
    exact hname

theorem separate_category_end_stable (part : Part) (p pre : Str) :
    (separate_category_end (separate_category_end part p pre).1 p pre).1 =
      (separate_category_end part p pre).1 := by
  rw [separate_category_end, separate_category_end]
  dsimp only
  rw [List.reverse_reverse, sepEndRev_stable]

theorem scp_end_name_stable (seg : Str) (part : Part) (pre : Str)
    (hname : hasKey part (str "name") = true) :
    separate_category_part seg (separate_category_part seg part false pre) false pre =
      separate_category_part seg part false pre := by
  rw [scp_end_of_name seg part pre hname]
  have hname2 : hasKey (separate_category_end part seg pre).1 (str "name") = true := by
    rw [hasKey_eq_mem, keysOf_separate_category_end, ← hasKey_eq_mem]
    exact hname
  rw [scp_end_of_name seg _ pre hname2, separate_category_end_stable]

/-- Processing an appended key block (first block without `name`) splits into
processing the blocks in sequence. -/
theorem separate_category_start_append (es fs : Part) (p : Str)
    (h : hasKey es (str "name") = false) :
    separate_category_start (es ++ fs) p =
      ((separate_category_start es p).1 ++
          (separate_category_start fs (separate_category_start es p).2).1,
        (separate_category_start fs (separate_category_start es p).2).2) := by
  induction es generalizing p with
  | nil => simp [separate_category_start]
  | cons kv rest ih =>
    obtain ⟨k, v⟩ := kv
    rw [hasKey, Bool.or_eq_false_iff] at h
    rw [List.cons_append, separate_category_start, separate_category_start,
      if_neg (by simpa using h.1), if_neg (by simpa using h.1)]
    dsimp only
    rw [ih _ h.2, List.cons_append]

theorem separate_category_start_stable_fst (part : Part) (p : Str) :
    separate_category_start (separate_category_start part p).1 p =
      separate_category_start part p :=
  separate_category_start_stable part p

theorem scp_start_noname_stable (seg : Str) (part : Part) (pre : Str)
    (hname : hasKey part (str "name") = false)
    (hbad : hasKey part (str "bad_naming") = false) :
    separate_category_part seg (separate_category_part seg part true pre) true pre =
      separate_category_part seg part true pre := by
  have hname1 : hasKey (separate_category_start part seg).1 (str "name") = false := by
    rw [hasKey_eq_mem, keysOf_separate_category_start, ← hasKey_eq_mem]
    exact hname
  have hbad1 : hasKey (separate_category_start part seg).1 (str "bad_naming") = false := by
    rw [hasKey_eq_mem, keysOf_separate_category_start, ← hasKey_eq_mem]
    exact hbad
  rw [separate_category_part_start_eq seg part pre]
  split_ifs with h
  · rw [separate_category_part_start_eq, separate_category_start_stable]
    rw [if_pos h]
  · rw [handle_remaining_part, if_neg (by rw [hname1]; exact Bool.false_ne_true)]
    rw [setVal_of_not_hasKey _ _ _ hbad1]
    rw [separate_category_part_start_eq]
    rw [separate_category_start_append _ _ _ hname1, separate_category_start_stable]
    have hb : separate_category_start
        [(str "bad_naming", (separate_category_start part seg).2)]
        (separate_category_start part seg).2 =
        ([(str "bad_naming", (separate_category_start part seg).2)],
          (separate_category_start part seg).2) := rfl
    rw [hb]
    dsimp only
    rw [if_neg h]
    rw [handle_remaining_part, if_neg]
    · rw [setVal_of_getVal_eq]
      · rw [hasKey_append]
        simp only [Bool.or_eq_true]
        right
        rw [hasKey, hasKey]
        simp
      · rw [getVal_append_of_not_hasKey _ _ _ hbad1]
        rw [getVal, if_pos rfl]
    · rw [hasKey_append, hname1, Bool.false_or]
      rw [hasKey, hasKey]
      simp only [Bool.or_false, decide_eq_true_eq]
      decide

/-! ## Collapsing the redundant repeated peeling calls -/

theorem getD_mem {α : Type} {l : List α} {i : Nat} (d : α) (h : i < l.length) :
    l.getD i d ∈ l := by
  rw [List.getD_eq_getElem l d h]
  exact List.getElem_mem h

theorem modifyIdx_congr {α : Type} (f g : α → α) (i : Nat) (l : List α) (d : α)
    (hi : i < l.length) (h : f (l.getD i d) = g (l.getD i d)) :
    modifyIdx f i l = modifyIdx g i l := by
  induction l generalizing i with
  | nil => simp at hi
  | cons a rest ih =>
    cases i with
    | zero =>
      rw [modifyIdx, modifyIdx]
      rw [List.getD_cons_zero] at h
      rw [h]
    | succ n =>
      rw [modifyIdx, modifyIdx]
      rw [List.getD_cons_succ] at h
      rw [ih n (by simpa using hi) h]

theorem separate_category_eq_modify (name : Str) (pi ni : Nat) (parts : List Part)
    (start : Bool) (pre : Str) :
    separate_category name pi ni parts start pre =
      modifyIdx
        (fun part => separate_category_part ((splitOn '_' name).getD ni []) part start pre)
        pi parts := rfl

theorem fold_sep_collapse {β : Type} (l : List β) (hne : l ≠ []) (g : Part → Part)
    (i : Nat) (parts : List Part) (hi : i < parts.length)
    (hstab : g (g (parts.getD i [])) = g (parts.getD i [])) :
    l.foldl (fun ps _ => modifyIdx g i ps) parts = modifyIdx g i parts := by
  apply foldl_const_idem (modifyIdx g i) parts ?_ l hne
  rw [modifyIdx_modifyIdx]
  exact modifyIdx_congr _ _ _ _ [] hi hstab

/-! ## The exact-regime step: one part, fully characterized -/

theorem exactStep_spec (name : Str) (i : Nat) (parts : List Part)
    (hlen : i < parts.length)
    (hsafe : SafePart (parts.getD i []))
    (hnodup : (keysOf (parts.getD i [])).Nodup)
    (hinit : allEmpty (parts.getD i []) = true) :
    (exactStep name i parts []).2 = [] ∧
    (exactStep name i parts []).1.length = parts.length ∧
    (∀ j, j ≠ i → (exactStep name i parts []).1.getD j [] = parts.getD j []) ∧
    concatValues ((exactStep name i parts []).1.getD i []) =
      (splitOn '_' name).getD i [] := by
  obtain ⟨hne, hbad, hside⟩ := hsafe
  cases hK : hasKey (parts.getD i []) (str "name") with
  | true =>
    have hmem : str "name" ∈ keysOf (parts.getD i []) := (hasKey_iff _ _).mp hK
    obtain ⟨hdec, hnb, hna⟩ := keys_decomp_of_name _ hmem hnodup
    rcases hside hK with hb1 | hb2
    · -- no categories before `name`
      cases hb2e : (get_before_after_name (keysOf (parts.getD i []))).2.isEmpty with
      | true =>
        -- `name` is the only key: direct segment assignment
        have hb2 : (get_before_after_name (keysOf (parts.getD i []))).2 = [] :=
          List.isEmpty_iff.mp hb2e
        rw [hb1, hb2] at hdec
        obtain ⟨p1, v₀, p2, hp, hk1, hk2⟩ := part_decomp_of_keys hdec
        have hp1 : p1 = [] := List.map_eq_nil_iff.mp hk1
        have hp2 : p2 = [] := List.map_eq_nil_iff.mp hk2
        rw [hp1, hp2, List.nil_append] at hp
        simp only [exactStep, hK, if_true, hb1, hb2, List.isEmpty_nil, Bool.not_true,
          Bool.false_and, Bool.and_false, Bool.false_eq_true, if_false, Bool.and_self,
          if_true]
        refine ⟨trivial, length_modifyIdx _ _ _, fun j hj => getD_modifyIdx_ne _ _ _ hj, ?_⟩
        rw [getD_modifyIdx_self _ _ hlen, hp]
        rw [setVal, if_pos rfl, concatValues_cons, concatValues_nil, List.append_nil]
      | false =>
        -- categories only after `name`
        have hb2 : (get_before_after_name (keysOf (parts.getD i []))).2 ≠ [] := by
          intro hcon
          rw [hcon] at hb2e
          simp at hb2e
        simp only [exactStep, hK, if_true, hb1, List.isEmpty_nil, Bool.not_true,
          Bool.not_false, Bool.false_and, Bool.and_false, Bool.true_and,
          Bool.false_eq_true, if_false, hb2e, if_true]
        simp only [separate_category_eq_modify]
        rw [fold_sep_collapse _ (by simpa using hb2) _ i parts hlen
          (scp_end_name_stable _ _ _ hK)]
        refine ⟨trivial, length_modifyIdx _ _ _, fun j hj => getD_modifyIdx_ne _ _ _ hj, ?_⟩
        rw [getD_modifyIdx_self _ _ hlen]
        rw [scp_end_of_name _ _ _ hK]
        rw [hb1] at hdec
        obtain ⟨p1, v₀, p2, hp, hk1, hk2⟩ := part_decomp_of_keys hdec
        have hp1 : p1 = [] := List.map_eq_nil_iff.mp hk1
        rw [hp1, List.nil_append] at hp
        rw [hp]
        have hpostname : hasKey p2 (str "name") = false := by
          rw [hasKey_eq_mem, hk2]
          exact decide_eq_false hna
        have hpostinit : allEmpty p2 = true := by
          rw [hp] at hinit
          rw [allEmpty, List.all_cons, Bool.and_eq_true] at hinit
          exact hinit.2
        exact (separate_category_end_concat_name_first p2 v₀ _ hpostname hpostinit).1
    · -- no categories after `name` (but possibly before)
      cases hb1e : (get_before_after_name (keysOf (parts.getD i []))).1.isEmpty with
      | true =>
        have hb1 : (get_before_after_name (keysOf (parts.getD i []))).1 = [] :=
          List.isEmpty_iff.mp hb1e
        rw [hb1, hb2] at hdec
        obtain ⟨p1, v₀, p2, hp, hk1, hk2⟩ := part_decomp_of_keys hdec
        have hp1 : p1 = [] := List.map_eq_nil_iff.mp hk1
        have hp2 : p2 = [] := List.map_eq_nil_iff.mp hk2
        rw [hp1, hp2, List.nil_append] at hp
        simp only [exactStep, hK, if_true, hb1, hb2, List.isEmpty_nil, Bool.not_true,
          Bool.false_and, Bool.and_false, Bool.false_eq_true, if_false, Bool.and_self,
          if_true]
        refine ⟨trivial, length_modifyIdx _ _ _, fun j hj => getD_modifyIdx_ne _ _ _ hj, ?_⟩
        rw [getD_modifyIdx_self _ _ hlen, hp]
        rw [setVal, if_pos rfl, concatValues_cons, concatValues_nil, List.append_nil]
      | false =>
        -- categories only before `name`
        have hb1 : (get_before_after_name (keysOf (parts.getD i []))).1 ≠ [] := by
          intro hcon
          rw [hcon] at hb1e
          simp at hb1e
        simp only [exactStep, hK, if_true, hb1e, hb2, List.isEmpty_nil, Bool.not_true,
          Bool.not_false, Bool.and_false, Bool.false_and, Bool.false_eq_true, if_false,
          if_true]
        simp only [separate_category_eq_modify]
        rw [fold_sep_collapse _ hb1 _ i parts hlen (scp_start_name_stable _ _ _ hK)]
        refine ⟨trivial, length_modifyIdx _ _ _, fun j hj => getD_modifyIdx_ne _ _ _ hj, ?_⟩
        rw [getD_modifyIdx_self _ _ hlen]
        rw [scp_start_of_name _ _ _ hK]
        exact separate_category_start_concat_of_name _ _ hK hinit
  | false =>
    have hkeysne : keysOf (parts.getD i []) ≠ [] := by
      intro hcon
      exact hne (List.map_eq_nil_iff.mp hcon)
    simp only [exactStep, hK, Bool.false_eq_true, if_false]
    simp only [separate_category_eq_modify]
    rw [fold_sep_collapse _ hkeysne _ i parts hlen
      (scp_start_noname_stable _ _ _ hK hbad)]
    refine ⟨trivial, length_modifyIdx _ _ _, fun j hj => getD_modifyIdx_ne _ _ _ hj, ?_⟩
    rw [getD_modifyIdx_self _ _ hlen]
    rw [separate_category_part_start_eq]
    have hcc := separate_category_start_concat_no_name (parts.getD i [])
      ((splitOn '_' name).getD i []) hK hinit
    cases hre : (separate_category_start (parts.getD i [])
        ((splitOn '_' name).getD i [])).2.isEmpty with
    | true =>
      rw [if_pos rfl]
      have : (separate_category_start (parts.getD i [])
          ((splitOn '_' name).getD i [])).2 = [] := List.isEmpty_iff.mp hre
      rw [this, List.append_nil] at hcc
      exact hcc
    | false =>
      rw [if_neg Bool.false_ne_true]
      rw [handle_remaining_part, if_neg]
      · have hbad1 : hasKey (separate_category_start (parts.getD i [])
            ((splitOn '_' name).getD i [])).1 (str "bad_naming") = false := by
          rw [hasKey_eq_mem, keysOf_separate_category_start, ← hasKey_eq_mem]
          exact hbad
        rw [setVal_of_not_hasKey _ _ _ hbad1, concatValues_append, concatValues_cons,
          concatValues_nil, List.append_nil]
        exact hcc
      · have hname1 : hasKey (separate_category_start (parts.getD i [])
            ((splitOn '_' name).getD i [])).1 (str "name") = false := by
          rw [hasKey_eq_mem, keysOf_separate_category_start, ← hasKey_eq_mem]
          exact hK
        rw [hname1]
        exact Bool.false_ne_true

/-! ## The exact-regime loop over all parts -/

theorem exactLoop_spec (name : Str) (idxs : List Nat) (parts : List Part)
    (hnd : idxs.Nodup)
    (hb : ∀ i ∈ idxs, i < parts.length)
    (hwf : ∀ i ∈ idxs, SafePart (parts.getD i []) ∧
      (keysOf (parts.getD i [])).Nodup ∧ allEmpty (parts.getD i []) = true) :
    (exactLoop name idxs parts []).length = parts.length ∧
    (∀ j, j ∉ idxs → (exactLoop name idxs parts []).getD j [] = parts.getD j []) ∧
    (∀ i ∈ idxs, concatValues ((exactLoop name idxs parts []).getD i []) =
      (splitOn '_' name).getD i []) := by
  induction idxs generalizing parts with
  | nil => exact ⟨rfl, fun j _ => rfl, fun i hi => absurd hi (by simp)⟩
  | cons i rest ih =>
    obtain ⟨hws, hwn, hwe⟩ := hwf i (List.mem_cons_self i rest)
    have hilen := hb i (List.mem_cons_self i rest)
    obtain ⟨hsnd, hslen, hsother, hsconc⟩ :=
      exactStep_spec name i parts hilen hws hwn hwe
    have hnotmem : i ∉ rest := (List.nodup_cons.mp hnd).1
    have hstep : exactLoop name (i :: rest) parts [] =
        exactLoop name rest (exactStep name i parts []).1 [] := by
      rw [exactLoop, hsnd]
    obtain ⟨ihlen, ihother, ihconc⟩ := ih (exactStep name i parts []).1
      (List.nodup_cons.mp hnd).2
      (fun j hj => by rw [hslen]; exact hb j (List.mem_cons_of_mem i hj))
      (fun j hj => by
        rw [hsother j (fun hji => hnotmem (hji ▸ hj))]
        exact hwf j (List.mem_cons_of_mem i hj))
    refine ⟨?_, ?_, ?_⟩
    · rw [hstep, ihlen, hslen]
    · intro j hj
      rw [hstep, ihother j (fun hmem => hj (List.mem_cons_of_mem i hmem)),
        hsother j (fun hji => hj (hji ▸ List.mem_cons_self i rest))]
    · intro j hj
      rcases List.mem_cons.mp hj with hji | hjrest
      · subst hji
        rw [hstep, ihother j hnotmem, hsconc]
      · rw [hstep, ihconc j hjrest]

/-! ## Reassembling the rebuilt name from the per-part segments -/

theorem rebuild_fold (parts : List Part) (segs : List Str) (acc : Str)
    (hlen : parts.length = segs.length)
    (hconc : ∀ i, i < parts.length → concatValues (parts.getD i []) = segs.getD i [])
    (hne : ∀ s ∈ segs, s ≠ []) :
    parts.foldl
        (fun acc part => if allEmpty part then acc else acc ++ concatValues part ++ ['_'])
        acc =
      acc ++ (segs.map (fun s => s ++ ['_'])).flatten := by
  induction parts generalizing segs acc with
  | nil =>
    cases segs with
    | nil => simp
    | cons s srest => simp at hlen
  | cons part rest ih =>
    cases segs with
    | nil => simp at hlen
    | cons s srest =>
      have h0 : concatValues part = s := hconc 0 (by simp)
      have hsne : s ≠ [] := hne s (List.mem_cons_self s srest)
      have hpne : allEmpty part = false :=
        not_allEmpty_of_concat_ne (by rw [h0]; exact hsne)
      rw [List.foldl_cons, hpne]
      simp only [Bool.false_eq_true, if_false]
      rw [h0]
      rw [ih srest (acc ++ s ++ ['_']) (by simpa using hlen)
        (fun i hi => hconc (i + 1) (by simpa using Nat.succ_lt_succ hi))
        (fun t ht => hne t (List.mem_cons_of_mem s ht))]
      rw [List.map_cons, List.flatten_cons]
      simp [List.append_assoc]

theorem joinSep_ne_nil (segs : List Str) (h : segs ≠ [])
    (hpieces : ∀ s ∈ segs, s ≠ []) : joinSep '_' segs ≠ [] := by
  cases segs with
  | nil => exact absurd rfl h
  | cons s rest =>
    cases rest with
    | nil => exact hpieces s (List.mem_cons_self s [])
    | cons t rest' =>
      have hj : joinSep '_' (s :: t :: rest') = s ++ '_' :: joinSep '_' (t :: rest') := rfl
      rw [hj]
      intro hcon
      have := List.append_eq_nil.mp hcon
      simp at this

theorem flatten_map_eq_joinSep (segs : List Str) (hne : segs ≠ []) :
    (segs.map (fun s => s ++ ['_'])).flatten = joinSep '_' segs ++ ['_'] := by
  induction segs with
  | nil => exact absurd rfl hne
  | cons s rest ih =>
    cases rest with
    | nil => simp [joinSep]
    | cons t rest' =>
      have hj : joinSep '_' (s :: t :: rest') = s ++ '_' :: joinSep '_' (t :: rest') := rfl
      rw [List.map_cons, List.flatten_cons, ih (by simp), hj]
      simp

theorem joinSep_head_cases (segs : List Str) (hne : segs ≠ [])
    (hpieces : ∀ s ∈ segs, s ≠ []) (hfree : ∀ s ∈ segs, '_' ∉ s) :
    ∃ c t, joinSep '_' segs = c :: t ∧ c ≠ '_' := by
  cases segs with
  | nil => exact absurd rfl hne
  | cons s rest =>
    have hs := hpieces s (List.mem_cons_self s rest)
    cases s with
    | nil => exact absurd rfl hs
    | cons c s' =>
      have hc : c ≠ '_' := by
        intro hcon
        exact hfree _ (List.mem_cons_self _ rest) (by rw [hcon]; exact List.mem_cons_self _ s')
      cases rest with
      | nil => exact ⟨c, s', rfl, hc⟩
      | cons t rest' => exact ⟨c, s' ++ '_' :: joinSep '_' (t :: rest'), rfl, hc⟩

theorem joinSep_getLast (segs : List Str) (hne : segs ≠ [])
    (hpieces : ∀ s ∈ segs, s ≠ []) (hfree : ∀ s ∈ segs, '_' ∉ s) :
    ∃ c, (joinSep '_' segs).getLast? = some c ∧ c ≠ '_' := by
  induction segs with
  | nil => exact absurd rfl hne
  | cons s rest ih =>
    cases rest with
    | nil =>
      have hs := hpieces s (List.mem_cons_self s [])
      refine ⟨s.getLast hs, ?_, ?_⟩
      · rw [joinSep]
        exact List.getLast?_eq_getLast s hs
      · intro hcon
        exact hfree s (List.mem_cons_self s []) (hcon ▸ List.getLast_mem hs)
    | cons t rest' =>
      obtain ⟨c, hc1, hc2⟩ := ih (by simp)
        (fun x hx => hpieces x (List.mem_cons_of_mem s hx))
        (fun x hx => hfree x (List.mem_cons_of_mem s hx))
      refine ⟨c, ?_, hc2⟩
      have hj : joinSep '_' (s :: t :: rest') = s ++ '_' :: joinSep '_' (t :: rest') := rfl
      rw [hj]
      rw [List.getLast?_append_of_ne_nil s (by simp)]
      have hj : joinSep '_' (t :: rest') ≠ [] :=
        joinSep_ne_nil _ (by simp)
          (fun x hx => hpieces x (List.mem_cons_of_mem s hx))
      rw [show ('_' :: joinSep '_' (t :: rest')) = ['_'] ++ joinSep '_' (t :: rest') from rfl]
      rw [List.getLast?_append_of_ne_nil _ hj]
      exact hc1

theorem stripChar_append_sep (l : Str) (c0 : Char) (t : Str) (c1 : Char)
    (hl : l = c0 :: t) (hc0 : c0 ≠ '_') (hlast : l.getLast? = some c1)
    (hc1 : c1 ≠ '_') :
    stripChar '_' (l ++ ['_']) = l := by
  rw [stripChar]
  have h1 : (l ++ ['_']).dropWhile (fun x => x = '_') = l ++ ['_'] := by
    rw [hl, List.cons_append, List.dropWhile_cons, if_neg (by simpa using hc0)]
  rw [h1]
  have h2 : (l ++ ['_']).reverse = '_' :: l.reverse := by
    rw [List.reverse_append]
    rfl
  rw [h2]
  rw [List.dropWhile_cons, if_pos (by simp)]
  have h3 : l.reverse.dropWhile (fun x => x = '_') = l.reverse := by
    have hh : l.reverse.head? = some c1 := by
      rw [List.head?_reverse]
      exact hlast
    cases hrev : l.reverse with
    | nil => rfl
    | cons d rest =>
      rw [hrev] at hh
      have hd : d = c1 := by
        simpa using hh
      rw [List.dropWhile_cons, if_neg (by simp [hd]; exact hc1)]
  rw [h3, List.reverse_reverse]

/-! ## The safe-template round-trip theorem (shared by claims C1 and C2) -/

theorem roundtrip_exact_safe (name ns : Str)
    (hexact : (splitOn '_' name).length = (splitTemplate ns).length)
    (hsegs : ∀ s ∈ splitOn '_' name, s ≠ [])
    (hsafe : SafeTemplate ns) :
    rebuilt_name (inspect_name_structure name ns) = name := by
  have hm : (mandatoryPartIndices ns).length ≤ (splitTemplate ns).length :=
    le_trans (List.length_filter_le _ _) (by simp)
  have hplen : (compiledParts ns).length = (splitTemplate ns).length := by
    rw [compiledParts, List.length_map]
  have hinspect : inspect_name_structure name ns =
      ⟨exactLoop name (List.range (splitTemplate ns).length) (compiledParts ns) [],
        none⟩ := by
    simp only [inspect_name_structure]
    rw [if_neg (by omega), if_neg (by omega), if_pos hexact]
  obtain ⟨hrlen, hrother, hrconc⟩ := exactLoop_spec name
    (List.range (splitTemplate ns).length) (compiledParts ns)
    (List.nodup_range _)
    (fun i hi => by rw [hplen]; exact List.mem_range.mp hi)
    (fun i hi => by
      have hmem : (compiledParts ns).getD i [] ∈ compiledParts ns :=
        getD_mem [] (by rw [hplen]; exact List.mem_range.mp hi)
      obtain ⟨x, _, hx⟩ := List.mem_map.mp
        (show (compiledParts ns).getD i [] ∈ (splitTemplate ns).map initPart from hmem)
      exact ⟨hsafe _ hmem, by rw [← hx]; exact initPart_keys_nodup x,
        by rw [← hx]; exact initPart_allEmpty x⟩)
  rw [hinspect, rebuilt_name]
  have hsplitlen : (splitOn '_' name).length = (splitTemplate ns).length := hexact
  have hfold := rebuild_fold
    (exactLoop name (List.range (splitTemplate ns).length) (compiledParts ns) [])
    (splitOn '_' name) []
    (by rw [hrlen, hplen, hsplitlen])
    (fun i hi => by
      have hi' : i < (splitTemplate ns).length := by
        rw [hrlen, hplen] at hi
        exact hi
      exact hrconc i (List.mem_range.mpr hi'))
    hsegs
  rw [hfold, List.nil_append]
  have hsegne : splitOn '_' name ≠ [] := splitOn_ne_nil '_' name
  rw [flatten_map_eq_joinSep _ hsegne]
  have hfree : ∀ s ∈ splitOn '_' name, '_' ∉ s := splitOn_no_sep '_' name
  obtain ⟨c0, t, hh, hc0⟩ := joinSep_head_cases _ hsegne hsegs hfree
  obtain ⟨c1, hl, hc1⟩ := joinSep_getLast _ hsegne hsegs hfree
  rw [stripChar_append_sep _ c0 t c1 hh hc0 hl hc1]
  exact joinSep_splitOn '_' name

/-! ## Regime-selection helper lemmas -/

theorem length_mandatory_le (ns : Str) :
    (mandatoryPartIndices ns).length ≤ (splitTemplate ns).length := by
  unfold mandatoryPartIndices
  exact le_trans (List.length_filter_le _ _) (by simp)

/-- Overfilled regime: the whole input lands under the top-level
`bad_naming` key and the parts stay untouched. -/
theorem inspect_overfilled_eq (name ns : Str)
    (h : (splitTemplate ns).length < (splitOn '_' name).length) :
    inspect_name_structure name ns = ⟨compiledParts ns, some name⟩ := by
  have hm := length_mandatory_le ns
  simp only [inspect_name_structure]
  rw [if_neg (by omega), if_pos h]

/-- Underfilled regime: the whole input is assigned to the first `name`
part. -/
theorem inspect_underfilled_eq (name ns : Str)
    (h : (splitOn '_' name).length < (mandatoryPartIndices ns).length) :
    inspect_name_structure name ns =
      ⟨assignNameUnderfilled name (compiledParts ns), none⟩ := by
  simp only [inspect_name_structure]
  rw [if_pos h]

/-- Exact regime: the per-part peeling loop runs. -/
theorem inspect_exact_eq (name ns : Str)
    (h : (splitOn '_' name).length = (splitTemplate ns).length) :
    inspect_name_structure name ns =
      ⟨exactLoop name (List.range (splitTemplate ns).length) (compiledParts ns) [],
        none⟩ := by
  have hm := length_mandatory_le ns
  simp only [inspect_name_structure]
  rw [if_neg (by omega), if_neg (by omega), if_pos h]

/-- With no `name` category anywhere, the underfilled assignment loop is a
silent no-op. -/
theorem assignNameUnderfilled_no_name (name : Str) (parts : List Part)
    (h : parts.all (fun part => !(hasKey part (str "name"))) = true) :
    assignNameUnderfilled name parts = parts := by
  induction parts with
  | nil => rfl
  | cons p rest ih =>
    rw [List.all_cons, Bool.and_eq_true] at h
    rw [assignNameUnderfilled, if_neg, ih h.2]
    simp only [Bool.not_eq_true'] at h
    simp [h.1]

theorem le_leadingDigitRun_iff (n : Nat) (p : Str) :
    n ≤ leadingDigitRun p ↔ n ≤ p.length ∧ (p.take n).all Char.isDigit = true := by
  induction p generalizing n with
  | nil =>
    simp [leadingDigitRun]
  | cons c rest ih =>
    cases n with
    | zero => simp
    | succ n =>
      by_cases hc : c.isDigit
      · rw [leadingDigitRun, List.takeWhile_cons, if_pos hc]
        simp only [List.length_cons, List.take_succ_cons, List.all_cons, hc,
          Bool.true_and, Nat.succ_le_succ_iff]
        exact ih n
      · rw [leadingDigitRun, List.takeWhile_cons, if_neg hc]
        simp [hc]

/-- The mirror of `le_leadingDigitRun_iff` at the end of the fragment. -/
theorem le_trailingDigitRun_iff (n : Nat) (p : Str) :
    n ≤ trailingDigitRun p ↔ n ≤ p.length ∧ (takeEnd p n).all Char.isDigit = true := by
  have hbase := le_leadingDigitRun_iff n p.reverse
  rw [List.length_reverse] at hbase
  unfold trailingDigitRun
  unfold leadingDigitRun at hbase
  have hall : n ≤ p.length →
      (takeEnd p n).all Char.isDigit = (p.reverse.take n).all Char.isDigit := by
    intro hn
    calc (takeEnd p n).all Char.isDigit
        = ((p.drop (p.length - n)).reverse).all Char.isDigit := by
          rw [List.all_reverse]; rfl
      _ = ((p.reverse.take (p.length - (p.length - n)))).all Char.isDigit := by
          rw [List.reverse_drop]
      _ = (p.reverse.take n).all Char.isDigit := by
          congr 2
          omega
  rw [hbase]
  constructor
  · rintro ⟨h1, h2⟩
    exact ⟨h1, by rw [hall h1]; exact h2⟩
  · rintro ⟨h1, h2⟩
    exact ⟨h1, by rw [← hall h1]; exact h2⟩

/-! # Claims -/

/-- C3.  For every name with more underscore segments than the template has
parts, `inspect_name_structure` stores the raw input under the top-level
`bad_naming` key (the per-part dicts stay in their initial all-empty state),
and `rebuilt_name` returns that exact string unchanged. -/
theorem c3_bad_naming_passthrough (name ns : Str)
    (h : (splitTemplate ns).length < (splitOn '_' name).length) :
    inspect_name_structure name ns = ⟨compiledParts ns, some name⟩ ∧
    rebuilt_name (inspect_name_structure name ns) = name := by
  have he := inspect_overfilled_eq name ns h
  exact ⟨he, by rw [he]; rfl⟩

/-- Witness for C3: the five-segment name `a_b_c_d_e` against the four-part
default template. -/
theorem c3_bad_naming_passthrough_witness :
    (splitTemplate NAME_STRUCTURE).length < (splitOn '_' (str "a_b_c_d_e")).length ∧
    rebuilt_name (inspect_name_structure (str "a_b_c_d_e") NAME_STRUCTURE) =
      str "a_b_c_d_e" :=
  ⟨by decide,
    (c3_bad_naming_passthrough (str "a_b_c_d_e") NAME_STRUCTURE (by decide)).2⟩

/-- C4 counterexample.  The claim says a 4-digit anchored run must NOT match
the width-3 `numerical_inc` category; but `separate_number` peels the first
three digits of the all-digit fragment `1234` (whose leading digit run is 4),
returning the nonempty value `123`. -/
theorem c4_numeric_counterexample :
    leadingDigitRun (str "1234") = 4 ∧
    separate_number (str "1234") INC_NUMBER_OF_DIGITS true = (str "123", str "4") := by
  constructor
  · decide
  · decide

/-- C4 (amended).  With width 3, `numerical_inc` matches exactly when the
anchored 3-character slice exists and is all digits: an anchored 2-digit run
never matches, while an anchored run of 3 or more digits matches and consumes
exactly the 3 anchored digits (a 4-digit run therefore DOES match, leaving
one digit behind). -/
theorem c4_numeric_exactness (p : Str) :
    (leadingDigitRun p = 2 → separate_number p INC_NUMBER_OF_DIGITS true = ([], p)) ∧
    (trailingDigitRun p = 2 → separate_number p INC_NUMBER_OF_DIGITS false = ([], p)) ∧
    (3 ≤ leadingDigitRun p →
      separate_number p INC_NUMBER_OF_DIGITS true = (p.take 3, p.drop 3)) ∧
    (3 ≤ trailingDigitRun p →
      separate_number p INC_NUMBER_OF_DIGITS false =
        (takeEnd p 3, p.take (p.length - 3))) := by
  refine ⟨?_, ?_, ?_, ?_⟩
  · intro h
    have hno : ¬(3 ≤ p.length ∧ (p.take 3).all Char.isDigit = true) := by
      rw [← le_leadingDigitRun_iff]
      omega
    rcases Nat.lt_or_ge p.length 3 with hl | hl
    · simp [separate_number, INC_NUMBER_OF_DIGITS, show ¬(3 ≤ p.length) by omega]
    · have hall : (p.take 3).all Char.isDigit = false :=
        Bool.eq_false_iff.mpr (fun hh => hno ⟨hl, hh⟩)
      simp [separate_number, INC_NUMBER_OF_DIGITS, hl, hall]
  · intro h
    have hno : ¬(3 ≤ p.length ∧ (takeEnd p 3).all Char.isDigit = true) := by
      rw [← le_trailingDigitRun_iff]
      omega
    rcases Nat.lt_or_ge p.length 3 with hl | hl
    · simp [separate_number, INC_NUMBER_OF_DIGITS, show ¬(3 ≤ p.length) by omega]
    · have hall : (takeEnd p 3).all Char.isDigit = false :=
        Bool.eq_false_iff.mpr (fun hh => hno ⟨hl, hh⟩)
      simp [separate_number, INC_NUMBER_OF_DIGITS, hl, hall]
  · intro h
    have hyes := (le_leadingDigitRun_iff 3 p).mp h
    simp [separate_number, INC_NUMBER_OF_DIGITS, hyes.1, hyes.2]
  · intro h
    have hyes := (le_trailingDigitRun_iff 3 p).mp h
    simp [separate_number, INC_NUMBER_OF_DIGITS, hyes.1, hyes.2]

/-- Witness for C4 (amended): the fragment `ab12` has a trailing run of 2
digits and does not match at the end anchor. -/
theorem c4_numeric_exactness_witness :
    trailingDigitRun (str "ab12") = 2 ∧
    separate_number (str "ab12") INC_NUMBER_OF_DIGITS false = ([], str "ab12") :=
  ⟨by decide, (c4_numeric_exactness (str "ab12")).2.1 (by decide)⟩

/-- C5.  With the zoning single tokens (`Tp` for Top, `Lt` for Left among
them), recursively peeling the compound fragment `TpLt` anchored at the start
consumes the whole compound as the single matched zoning value, with no
leftover. -/
theorem c5_recursive_suffix_stripping :
    ZONING_SINGLE_DICT.contains (str "Tp") = true ∧
    ZONING_SINGLE_DICT.contains (str "Lt") = true ∧
    separate_value_recursive (str "TpLt") ZONING_SINGLE_DICT true =
      (str "TpLt", []) := by
  refine ⟨by decide, by decide, by decide⟩

/-- C6.  In the underfilled regime (fewer segments than mandatory parts) the
whole input is assigned, unmodified, to the `name` category of the first part
containing `name`, every other category staying empty; in particular the
template `[type]_[name]` with input `Body` yields `name = "Body"`,
`type = ""`, and rebuilding returns `Body`. -/
theorem c6_underfilled_passthrough (name ns : Str)
    (h : (splitOn '_' name).length < (mandatoryPartIndices ns).length) :
    inspect_name_structure name ns =
      ⟨assignNameUnderfilled name (compiledParts ns), none⟩ ∧
    inspect_name_structure (str "Body") (str "[type]_[name]") =
      ⟨[[(str "type", [])], [(str "name", str "Body")]], none⟩ ∧
    rebuilt_name (inspect_name_structure (str "Body") (str "[type]_[name]")) =
      str "Body" :=
  ⟨inspect_underfilled_eq name ns h, by decide, by decide⟩

/-- Witness for C6: the single-segment input `Body` against the two mandatory
parts of `[type]_[name]`. -/
theorem c6_underfilled_passthrough_witness :
    (splitOn '_' (str "Body")).length <
      (mandatoryPartIndices (str "[type]_[name]")).length ∧
    inspect_name_structure (str "Body") (str "[type]_[name]") =
      ⟨assignNameUnderfilled (str "Body") (compiledParts (str "[type]_[name]")), none⟩ :=
  ⟨by decide,
    (c6_underfilled_passthrough (str "Body") (str "[type]_[name]") (by decide)).1⟩

/-- C7.  With a `[name]_[numerical_inc]` structure (width 3) and a scene
collaborator reporting existence for exactly `obj_001` … `obj_010`, the
uniqueness-resolution loop starts at the given start number 1, zero-pads it,
increments by one re-testing existence each time, and returns the first free
short name `obj_011`. -/
theorem c7_uniqueness_resolution :
    objExistsMock (str "obj_001") = true ∧
    objExistsMock (str "obj_010") = true ∧
    objExistsMock (str "obj_011") = false ∧
    (rename_non_unique_name objExistsMock 20 (str "obj_001")
        (inspect_name_structure (str "obj_001") (str "[name]_[numerical_inc]"))
        'A' 1).map Prod.fst =
      some (str "obj_011") := by
  refine ⟨by decide, by decide, by decide, by decide⟩

/-- C8 counterexample.  For a compiled structure with no `name` category
anywhere (template `[type]`), `inspect_name_structure` does not raise any
`StructureError` (no such exception exists in the code base): on the
one-segment input `prp` it returns a normal `PartDict` with the `type`
category matched. -/
theorem c8_no_raise_counterexample :
    ((compiledParts (str "[type]")).all
      (fun part => !(hasKey part (str "name")))) = true ∧
    inspect_name_structure (str "prp") (str "[type]") =
      ⟨[[(str "type", str "prp")]], none⟩ := by
  refine ⟨by decide, by decide⟩

/-- C8 (amended).  The Matcher never raises: no `StructureError` exists in
the code.  When the compiled structure has no `name` category anywhere, the
exact regime simply matches the other categories (see the counterexample),
and in the underfilled regime the name-assignment loop silently finds no part
and returns the initial all-empty `PartDict` unchanged. -/
theorem c8_no_name_silent (name ns : Str)
    (hnoname : (compiledParts ns).all (fun part => !(hasKey part (str "name"))) = true)
    (hunder : (splitOn '_' name).length < (mandatoryPartIndices ns).length) :
    inspect_name_structure name ns = ⟨compiledParts ns, none⟩ := by
  rw [inspect_underfilled_eq name ns hunder,
    assignNameUnderfilled_no_name name (compiledParts ns) hnoname]

/-- Witness for C8 (amended): template `[type]_[type]` (two mandatory parts,
no `name` anywhere) with the single-segment input `x`. -/
theorem c8_no_name_silent_witness :
    ((compiledParts (str "[type]_[type]")).all
      (fun part => !(hasKey part (str "name")))) = true ∧
    (splitOn '_' (str "x")).length <
      (mandatoryPartIndices (str "[type]_[type]")).length ∧
    inspect_name_structure (str "x") (str "[type]_[type]") =
      ⟨compiledParts (str "[type]_[type]"), none⟩ :=
  ⟨by decide, by decide,
    c8_no_name_silent (str "x") (str "[type]_[type]") (by decide) (by decide)⟩

/-- C9.  Template `[type]_[name][zoning]` (vocabularies containing `prp` and
`Lt`), input `prp_jarLt`: part 0 gets `type = "prp"`, part 1 gets
`name = "jar"` and `zoning = "Lt"`, and rebuilding returns exactly
`prp_jarLt`. -/
theorem c9_exact_match_example :
    ALL_TYPES_DICT.contains (str "prp") = true ∧
    ZONING_SINGLE_DICT.contains (str "Lt") = true ∧
    inspect_name_structure (str "prp_jarLt") (str "[type]_[name][zoning]") =
      ⟨[[(str "type", str "prp")],
        [(str "name", str "jar"), (str "zoning", str "Lt")]], none⟩ ∧
    rebuilt_name (inspect_name_structure (str "prp_jarLt") (str "[type]_[name][zoning]")) =
      str "prp_jarLt" := by
  refine ⟨by decide, by decide, by decide, by decide⟩

/-- C10.  Applying the `rename_with_type` category edit to any overfilled
name (more segments than the default template's parts) whose raw text
contains `"type"` as a substring crashes (`TypeError`: the `in` test on the
top-level `bad_naming` *string* succeeds, and the subsequent item assignment
is performed on a string) instead of leaving the name unchanged. -/
theorem c10_overfilled_edit_crash (name ty : Str)
    (hover : (splitTemplate NAME_STRUCTURE).length < (splitOn '_' name).length)
    (hsub : containsSub (str "type") name = true) :
    rename_with_type name ty = Except.error () := by
  have hne : name.isEmpty = false := by
    cases name with
    | nil => exact absurd hover (by decide)
    | cons c rest => rfl
  rw [rename_with_type, hne]
  rw [inspect_overfilled_eq name NAME_STRUCTURE hover]
  simp only [Bool.false_eq_true, if_false, hsub, if_true]

/-- Witness for C10: the overfilled five-segment name `my_type_a_b_c`
(containing the text `type`). -/
theorem c10_overfilled_edit_crash_witness :
    (splitTemplate NAME_STRUCTURE).length <
      (splitOn '_' (str "my_type_a_b_c")).length ∧
    containsSub (str "type") (str "my_type_a_b_c") = true ∧
    rename_with_type (str "my_type_a_b_c") (str "grp") = Except.error () :=
  ⟨by decide, by decide,
    c10_overfilled_edit_crash (str "my_type_a_b_c") (str "grp") (by decide) (by decide)⟩

/-- C1 counterexample, exhibiting two independent ways the claimed identity
fails on conformant, Exact-accepted names.
First failure (both-sided part): the name `Lt` conforms to the template
`[symmetry][name][zoning]` (it is the rebuild of the valid assignment
`name = "Lt"`, other categories empty) and is accepted by the Exact regime
(1 segment, 1 part), yet inspect followed by rebuild produces `LLt`: the
symmetry candidate `L` is peeled off the front and the zoning candidate `Lt`
off the back of the same fragment, so the two matched values overlap.
Second failure (empty segment): the name `a__b` conforms to the template
`[symmetry]_[type]_[name]` (it is the rebuild of the valid assignment
`name = "a__b"`, the free-text name value itself containing underscores,
other categories empty) and is accepted by the Exact regime (3 segments,
3 parts); the template is even *safe* in the sense of the amended claim.
Yet inspect assigns segment `a` to part 0 as in-part `bad_naming`, leaves
the empty segment of part 1 wholly unmatched, assigns `b` as the name of
part 2, and rebuild drops the empty part 1 together with its separator,
returning `a_b`. -/
theorem c1_roundtrip_counterexample :
    (Conforms (str "Lt") (str "[symmetry][name][zoning]") ∧
     (splitOn '_' (str "Lt")).length =
       (splitTemplate (str "[symmetry][name][zoning]")).length ∧
     rebuilt_name
         (inspect_name_structure (str "Lt") (str "[symmetry][name][zoning]")) =
       str "LLt" ∧
     str "LLt" ≠ str "Lt") ∧
    (Conforms (str "a__b") (str "[symmetry]_[type]_[name]") ∧
     (splitOn '_' (str "a__b")).length =
       (splitTemplate (str "[symmetry]_[type]_[name]")).length ∧
     SafeTemplate (str "[symmetry]_[type]_[name]") ∧
     rebuilt_name
         (inspect_name_structure (str "a__b") (str "[symmetry]_[type]_[name]")) =
       str "a_b" ∧
     str "a_b" ≠ str "a__b") := by
  refine ⟨⟨⟨⟨[[(str "symmetry", []), (str "name", str "Lt"), (str "zoning", [])]], none⟩,
    by decide, by decide⟩, by decide, by decide, by decide⟩,
    ⟨⟨[[(str "symmetry", [])], [(str "type", [])], [(str "name", str "a__b")]], none⟩,
      by decide, by decide⟩, by decide, by decide, by decide, by decide⟩

/-- C1 (amended).  Inspect followed by rebuild is the identity on every name
accepted by the Exact regime all of whose underscore-separated segments are
nonempty, provided the template is *safe*: every part declares at least one
category, none declares the reserved `bad_naming` sentinel, and no part
places categories both before and after `name`.  (Each part of the default
template is safe.)  Both restrictions are forced by the counterexample, and
neither is implied by conformance: with a both-sided part the identity fails
on the conformant name `Lt`, and conformant names can have empty segments —
the free-text `name` value may itself contain underscores — on which the
identity fails even under a safe template (`a__b` rebuilds to `a_b`).  The
original claim, quantified over all conformant Exact-accepted names, is
false; this theorem is the largest verified restriction. -/
theorem c1_roundtrip_amended (name ns : Str)
    (hexact : (splitOn '_' name).length = (splitTemplate ns).length)
    (hsegs : ∀ s ∈ splitOn '_' name, s ≠ [])
    (hsafe : SafeTemplate ns) :
    rebuilt_name (inspect_name_structure name ns) = name :=
  roundtrip_exact_safe name ns hexact hsegs hsafe

/-- Witness for C1 (amended): the conformant name `L_prp_jarLtA_001` under
the (safe) default template. -/
theorem c1_roundtrip_amended_witness :
    (splitOn '_' (str "L_prp_jarLtA_001")).length =
      (splitTemplate NAME_STRUCTURE).length ∧
    (∀ s ∈ splitOn '_' (str "L_prp_jarLtA_001"), s ≠ []) ∧
    SafeTemplate NAME_STRUCTURE ∧
    rebuilt_name (inspect_name_structure (str "L_prp_jarLtA_001") NAME_STRUCTURE) =
      str "L_prp_jarLtA_001" :=
  ⟨by decide, by decide, by decide,
    c1_roundtrip_amended (str "L_prp_jarLtA_001") NAME_STRUCTURE
      (by decide) (by decide) (by decide)⟩

/-- C2 (amended).  Rebuild-of-inspect is idempotent for every Exact-regime
name with nonempty segments under a safe template (in that case the first
pass is already the identity, by the round-trip property); for other
Exact-regime names a rebuilt result can re-enter the traversal regime and
shrink again — see the counterexample. -/
theorem c2_idempotence_amended (name ns : Str)
    (hexact : (splitOn '_' name).length = (splitTemplate ns).length)
    (hsegs : ∀ s ∈ splitOn '_' name, s ≠ [])
    (hsafe : SafeTemplate ns) :
    rebuilt_name
        (inspect_name_structure (rebuilt_name (inspect_name_structure name ns)) ns) =
      rebuilt_name (inspect_name_structure name ns) := by
  simp only [roundtrip_exact_safe name ns hexact hsegs hsafe]

/-- Witness for C2 (amended): the conformant name `R_grp_potBt_007` under the
default template. -/
theorem c2_idempotence_amended_witness :
    (splitOn '_' (str "R_grp_potBt_007")).length =
      (splitTemplate NAME_STRUCTURE).length ∧
    (∀ s ∈ splitOn '_' (str "R_grp_potBt_007"), s ≠ []) ∧
    SafeTemplate NAME_STRUCTURE ∧
    rebuilt_name
        (inspect_name_structure
          (rebuilt_name (inspect_name_structure (str "R_grp_potBt_007") NAME_STRUCTURE))
          NAME_STRUCTURE) =
      rebuilt_name (inspect_name_structure (str "R_grp_potBt_007") NAME_STRUCTURE) :=
  ⟨by decide, by decide, by decide,
    c2_idempotence_amended (str "R_grp_potBt_007") NAME_STRUCTURE
      (by decide) (by decide) (by decide)⟩

/-- C2 counterexample.  The name `_prp_jar_xx` is accepted by the Exact
regime (4 segments, 4 parts of the default template), but rebuild-of-inspect
is not idempotent on it: the first pass yields `prp_jar_xx` (the empty
symmetry segment is dropped), and re-inspecting that three-segment result
sends it through the traversal regime, which discards the unmatched trailing
segment `xx`, rebuilding to `prp_jar`. -/
theorem c2_idempotence_counterexample :
    (splitOn '_' (str "_prp_jar_xx")).length =
      (splitTemplate NAME_STRUCTURE).length ∧
    rebuilt_name (inspect_name_structure (str "_prp_jar_xx") NAME_STRUCTURE) =
      str "prp_jar_xx" ∧
    rebuilt_name
        (inspect_name_structure
          (rebuilt_name (inspect_name_structure (str "_prp_jar_xx") NAME_STRUCTURE))
          NAME_STRUCTURE) =
      str "prp_jar" ∧
    str "prp_jar" ≠ str "prp_jar_xx" := by
  refine ⟨by decide, by decide, by decide, by decide⟩

end RenameThemAll
